import Mathlib

/-! # tq::TimeQueue (src/include/TimeQueue.h)

A shallow embedding of the timer queue.

* Time points of `CLOCK` are clock ticks, an `Int` (signed overflow of a time
  point is undefined in the source and not modelled); every call that reads
  `CLOCK::now()` takes the reading as its argument `now`.
* `TimerID = uint64_t` is a `Nat` below `2 ^ 64`; `++currentTID` wraps.
* `Handler = std::function<void(bool)>` is `Option H`: `none` is the empty
  function (`nullptr`), `some h` a callable named by the label `h`. Calling it
  is recorded as the pair `(h, aborted)`; a handler is an opaque effect that
  does not itself touch the queue.
* `Queue` is `std::priority_queue<QueueElement>` over a `std::vector`, whose
  container `GetContainer()` exposes: a `List` in vector order, kept as a
  binary heap by `std::push_heap` / `std::pop_heap` with `operator<`. The two
  library algorithms are written out as the usual sift-up and sift-down; the
  properties below use of them only that they keep heap order and the
  elements.
* The mutex, the condition variable and the worker thread are not state of the
  embedding: every operation below is taken as a whole. `CallHandlers` gives up
  the lock while a handler runs; a call made by another thread meanwhile is
  ordered before or after the pass.
-/

namespace tq

/-- The number of values of `TimerID = uint64_t`. -/
def TimerIDSize : Nat := 2 ^ 64

/-- The struct `QueueElement`: deadline `tp`, id `tid`, flag `aborted`, `handler`. -/
structure QueueElement (H : Type) where
  tp : Int
  tid : Nat
  aborted : Bool
  handler : Option H
deriving DecidableEq

namespace QueueElement

variable {H : Type}

/-- The member `operator<`: `return rhs.tp < tp;` (the later deadline is the smaller). -/
def lt (self rhs : QueueElement H) : Bool := decide (rhs.tp < self.tp)

/-- The member `QueueElement::Cancel()` at clock reading `now`: the first
component is the returned `result`, the second is `*this` after the three
assignments `tid = 0; aborted = true; handler = nullptr;`. -/
def Cancel (self : QueueElement H) (now : Int) : QueueElement H × QueueElement H :=
  (⟨now, self.tid, true, self.handler⟩, ⟨self.tp, 0, true, none⟩)

/-- The member `QueueElement::Handle()`: `if (handler) handler(aborted);`, as the
list of calls made, each a handler label with the argument it received. -/
def Handle (self : QueueElement H) : List (H × Bool) :=
  match self.handler with
  | some h => [(h, self.aborted)]
  | none => []

end QueueElement

/-! ## The container: `std::priority_queue` over a vector -/

section Heap

variable {H : Type}

/-- Exchange the elements at positions `i` and `j` of the vector. -/
def swapAt (vec : List (QueueElement H)) (i j : Nat) : List (QueueElement H) :=
  match vec[i]?, vec[j]? with
  | some a, some b => (vec.set i b).set j a
  | _, _ => vec

/-- The loop of `std::push_heap`: the element at `i` moves towards the root
while `comp(parent, value)` holds, the parent of `i` being `(i - 1) / 2`.
`fuel` bounds the number of iterations. -/
def siftUp : Nat → List (QueueElement H) → Nat → List (QueueElement H)
  | 0, vec, _ => vec
  | fuel + 1, vec, i =>
    if i = 0 then vec
    else
      match vec[(i - 1) / 2]?, vec[i]? with
      | some p, some v =>
        if p.lt v then siftUp fuel (swapAt vec ((i - 1) / 2) i) ((i - 1) / 2) else vec
      | _, _ => vec

/-- `std::push_heap(c.begin(), c.end(), comp)`: the last element is sifted up. -/
def push_heap (vec : List (QueueElement H)) : List (QueueElement H) :=
  siftUp vec.length vec (vec.length - 1)

/-- `priority_queue::push(x)`: `c.push_back(x); std::push_heap(...)`. -/
def push (vec : List (QueueElement H)) (x : QueueElement H) : List (QueueElement H) :=
  push_heap (vec ++ [x])

/-- The child of `i` that the sift-down of `std::pop_heap` looks at, `l` being
the left child at `2 i + 1`: the right child at `2 i + 2` when it exists and
`comp(left, right)`, the left child otherwise. -/
def greaterChild (vec : List (QueueElement H)) (i : Nat) (l : QueueElement H) : Nat :=
  match vec[2 * i + 2]? with
  | some r => if l.lt r then 2 * i + 2 else 2 * i + 1
  | none => 2 * i + 1

/-- The sift-down of `std::pop_heap` from position `i`: nothing to do without
a left child; otherwise the loop stops when `comp(child, value)` for the
greater child, and else exchanges the two and goes on from the child.
`fuel` bounds the number of iterations. -/
def siftDown : Nat → List (QueueElement H) → Nat → List (QueueElement H)
  | 0, vec, _ => vec
  | fuel + 1, vec, i =>
    match vec[2 * i + 1]? with
    | none => vec
    | some l =>
      match vec[greaterChild vec i l]?, vec[i]? with
      | some ch, some v =>
        if ch.lt v then vec
        else siftDown fuel (swapAt vec i (greaterChild vec i l)) (greaterChild vec i l)
      | _, _ => vec

/-- `priority_queue::pop()`: `std::pop_heap(...)` exchanges the first and the
last element and sifts the new first one down in the range without the last
position; `c.pop_back()` then drops the last position. -/
def pop : List (QueueElement H) → List (QueueElement H)
  | [] => []
  | [_] => []
  | _ :: y :: rest =>
    siftDown (rest.length + 1) ((y :: rest).getLast (List.cons_ne_nil y rest) :: (y :: rest).dropLast) 0

/-- `priority_queue::top()`: `c.front()`; `none` on an empty queue. -/
def top (vec : List (QueueElement H)) : Option (QueueElement H) := vec.head?

end Heap

/-! ## The queue object -/

/-- The data members of `TimeQueue` that the operations read and write:
`queue` (its container, in vector order) and `currentTID`. The flag
`stopWorkerThread`, written only by the handler the destructor schedules, is
defined from the record of handled elements further down. -/
structure TimeQueue (H : Type) where
  queue : List (QueueElement H)
  currentTID : Nat
deriving DecidableEq

namespace TimeQueue

variable {H : Type}

/-- The state after construction: `Queue queue;` and `TimerID currentTID{1};`. -/
def init : TimeQueue H := ⟨[], 1⟩

/-- `AddElement(tp, h)`: `queue.push(QueueElement{tp, ++currentTID, false, h});
return currentTID;`, the increment being that of a `uint64_t`. -/
def AddElement (q : TimeQueue H) (tp : Int) (h : Option H) : TimeQueue H × Nat :=
  let id := (q.currentTID + 1) % TimerIDSize
  (⟨push q.queue ⟨tp, id, false, h⟩, id⟩, id)

/-- `Schedule(time_point tp, Handler h)`: `AddElement` under the lock (the
`notify_one` has no effect on the data). -/
def Schedule (q : TimeQueue H) (tp : Int) (h : Option H) : TimeQueue H × Nat :=
  q.AddElement tp h

/-- `Schedule(milliseconds duration, Handler h)` at clock reading `now`:
`return Schedule(CLOCK::now() + duration, h);`, the duration in clock ticks. -/
def ScheduleAfter (q : TimeQueue H) (now duration : Int) (h : Option H) : TimeQueue H × Nat :=
  q.Schedule (now + duration) h

/-- The `for` loop of `Cancel(tid)` over `queue.GetContainer()`: at the first
element with `element.tid == tid` it stores `element.Cancel()` in
`canceledElement`, leaves the neutralized element in place and breaks. The
result is `canceledElement` with the container after the loop, or `none` when
`timerCanceled` stays `false`. -/
def cancelLoop (now : Int) (tid : Nat) :
    List (QueueElement H) → Option (QueueElement H × List (QueueElement H))
  | [] => none
  | element :: rest =>
    if element.tid = tid then
      some ((element.Cancel now).1, (element.Cancel now).2 :: rest)
    else
      match cancelLoop now tid rest with
      | some (canceledElement, rest') => some (canceledElement, element :: rest')
      | none => none

/-- `Cancel(tid)` at clock reading `now`: after the loop,
`if (timerCanceled) queue.push(canceledElement);` and `return timerCanceled;`. -/
def Cancel (q : TimeQueue H) (now : Int) (tid : Nat) : TimeQueue H × Bool :=
  match cancelLoop now tid q.queue with
  | some (canceledElement, vec) => (⟨push vec canceledElement, q.currentTID⟩, true)
  | none => (q, false)

/-- The predicate of the timed wait in `Wait`, with `lastSize` captured at entry:
`queue.top().tp <= CLOCK::now() || lastSize != queue.size()`. -/
def waitPredicate (q : TimeQueue H) (lastSize : Nat) (now : Int) : Bool :=
  match top q.queue with
  | some e => decide (e.tp ≤ now) || decide (lastSize ≠ q.queue.length)
  | none => decide (lastSize ≠ q.queue.length)

/-- The loop of `CallHandlers`, every iteration of the pass reading the clock
as `now`: `while (!queue.empty() && queue.top().tp < CLOCK::now())` the front
element is moved into `e` and popped, then `e.Handle()` runs. The result is the
container left and the elements `e` in the order they were popped. `fuel`
bounds the number of iterations. -/
def callHandlersLoop (now : Int) :
    Nat → List (QueueElement H) → List (QueueElement H) × List (QueueElement H)
  | 0, vec => (vec, [])
  | fuel + 1, vec =>
    match top vec with
    | some e =>
      if e.tp < now then
        ((callHandlersLoop now fuel (pop vec)).1, e :: (callHandlersLoop now fuel (pop vec)).2)
      else (vec, [])
    | none => (vec, [])

/-- `CallHandlers` at clock reading `now`: every iteration pops one element, so
`queue.size()` iterations are enough. The second component lists the popped
elements in order; their handlers run in that order. -/
def CallHandlers (q : TimeQueue H) (now : Int) : TimeQueue H × List (QueueElement H) :=
  (⟨(callHandlersLoop now q.queue.length q.queue).1, q.currentTID⟩,
    (callHandlersLoop now q.queue.length q.queue).2)

end TimeQueue

/-- The calls made by handling the elements `es` in order. -/
def invocations {H : Type} (es : List (QueueElement H)) : List (H × Bool) :=
  es.flatMap QueueElement.Handle

/-! ## Runs: calls on one queue object, and what they return -/

/-- A call on the queue object: the two `Schedule` overloads and `Cancel`, made
by callers, and one pass of the worker (`Wait` returning, then `CallHandlers`).
Each carries its arguments and the clock reading it takes. -/
inductive Op (H : Type) where
  | schedule (tp : Int) (h : Option H)
  | scheduleAfter (now duration : Int) (h : Option H)
  | cancel (now : Int) (tid : Nat)
  | dispatch (now : Int)
deriving DecidableEq

/-- What a call leaves behind for an observer: the id `Schedule` returned for a
deadline and a handler; the `canceledElement` that `Cancel` pushed (`none`
when it returned `false`); an element the worker popped and handled. -/
inductive Event (H : Type) where
  | scheduled (tp : Int) (h : Option H) (id : Nat)
  | cancelled (now : Int) (tid : Nat) (canceledElement : Option (QueueElement H))
  | handled (e : QueueElement H)
deriving DecidableEq

/-- A queue object together with the record of the calls made on it so far. -/
structure System (H : Type) where
  q : TimeQueue H
  log : List (Event H)
deriving DecidableEq

namespace System

variable {H : Type}

/-- A freshly constructed queue, nothing recorded. -/
def init : System H := ⟨TimeQueue.init, []⟩

/-- One call: the queue operation runs and its outcome is appended to the record. -/
def step (s : System H) : Op H → System H
  | .schedule tp h =>
    ⟨(s.q.Schedule tp h).1, s.log ++ [.scheduled tp h (s.q.Schedule tp h).2]⟩
  | .scheduleAfter now duration h =>
    ⟨(s.q.ScheduleAfter now duration h).1,
      s.log ++ [.scheduled (now + duration) h (s.q.ScheduleAfter now duration h).2]⟩
  | .cancel now tid =>
    ⟨(s.q.Cancel now tid).1,
      s.log ++ [.cancelled now tid ((TimeQueue.cancelLoop now tid s.q.queue).map Prod.fst)]⟩
  | .dispatch now =>
    ⟨(s.q.CallHandlers now).1, s.log ++ (s.q.CallHandlers now).2.map .handled⟩

/-- The calls `ops` made in order, starting from `s`. -/
def run (s : System H) (ops : List (Op H)) : System H := ops.foldl step s

end System

/-- The ids returned by the `Schedule` calls of a record, in call order. -/
def scheduledIds {H : Type} : List (Event H) → List Nat
  | [] => []
  | .scheduled _ _ id :: rest => id :: scheduledIds rest
  | _ :: rest => scheduledIds rest

/-- The elements the worker handled in a record, in the order it popped them. -/
def handledElements {H : Type} : List (Event H) → List (QueueElement H)
  | [] => []
  | .handled e :: rest => e :: handledElements rest
  | _ :: rest => handledElements rest

/-- The number of `Schedule` calls (either overload) among `ops`. -/
def scheduleCalls {H : Type} : List (Op H) → Nat
  | [] => 0
  | .schedule _ _ :: rest => scheduleCalls rest + 1
  | .scheduleAfter _ _ _ :: rest => scheduleCalls rest + 1
  | _ :: rest => scheduleCalls rest

/-! ## Heap order of the container -/

section HeapOrder

variable {H : Type}

/-- The deadline stored at position `i` of the container (`0` past its end). -/
def keyAt (vec : List (QueueElement H)) (i : Nat) : Int :=
  match vec[i]? with
  | some e => e.tp
  | none => 0

/-- What `std::is_heap` checks with `operator<`: no element is less than its
child, that is, every deadline is at least the deadline at the parent position. -/
def IsHeap (vec : List (QueueElement H)) : Prop :=
  ∀ j, j < vec.length → 0 < j → keyAt vec ((j - 1) / 2) ≤ keyAt vec j

instance (vec : List (QueueElement H)) : Decidable (IsHeap vec) := by
  unfold IsHeap; infer_instance

/-- Heap order everywhere except between `i` and its parent; the children of
`i` already respect the parent of `i`. The state of the container inside the
loop of `std::push_heap`. -/
def HeapExceptUp (vec : List (QueueElement H)) (i : Nat) : Prop :=
  (∀ j, j < vec.length → 0 < j → j ≠ i → keyAt vec ((j - 1) / 2) ≤ keyAt vec j) ∧
  (∀ j, j < vec.length → 0 < j → (j - 1) / 2 = i → 0 < i →
    keyAt vec ((i - 1) / 2) ≤ keyAt vec j)

/-- Heap order everywhere except between `i` and its children; the children of
`i` already respect the parent of `i`. The state of the container inside the
sift-down of `std::pop_heap`. -/
def HeapExceptDown (vec : List (QueueElement H)) (i : Nat) : Prop :=
  (∀ j, j < vec.length → 0 < j → (j - 1) / 2 ≠ i → keyAt vec ((j - 1) / 2) ≤ keyAt vec j) ∧
  (∀ j, j < vec.length → 0 < j → (j - 1) / 2 = i → 0 < i →
    keyAt vec ((i - 1) / 2) ≤ keyAt vec j)

end HeapOrder

/-! ## Concrete runs used as test inputs -/

section Examples

/-- `Schedule(10, h7)` on a fresh queue; the call returns id 2. -/
def oneTimer : TimeQueue Nat := (TimeQueue.init.Schedule 10 (some 7)).1

/-- `oneTimer` after `Cancel(2)` at clock reading 0 has returned `true`. -/
def oneTimerCancelled : TimeQueue Nat := (oneTimer.Cancel 0 2).1

/-- One timer with handler 7, `Cancel(2)` twice, then a worker pass. -/
def cancelTwiceThenDispatch : List (Op Nat) :=
  [Op.schedule 10 (some 7), Op.cancel 0 2, Op.cancel 1 2, Op.dispatch 5]

/-- Two timers, ids 2 and 3 with deadlines 10 and 20, then `Cancel(2)` at clock
reading 15. -/
def cancelledFirstOfTwo : List (Op Nat) :=
  [Op.schedule 10 (some 7), Op.schedule 20 (some 8), Op.cancel 15 2]

/-- Five timers submitted with decreasing deadlines, as in `src/example.cpp`. -/
def fiveTimers : List (Int × Option Nat) :=
  [(5000, some 1), (4500, some 2), (4000, some 3), (3500, some 4), (3000, some 5)]

/-- Three timers with deadlines 30, 10 and 20 and handlers 1, 2, 3; the label 0
is kept for the handler of the destructor. -/
def threeTimers : List (Op Nat) :=
  [Op.schedule 30 (some 1), Op.schedule 10 (some 2), Op.schedule 20 (some 3)]

/-- The operations of `n` rounds: `Schedule(0, nullptr)`, then one pass of the
worker at clock reading 5, which pops the element just scheduled. -/
def rounds (n : Nat) : List (Op Nat) :=
  (List.replicate n [Op.schedule 0 none, Op.dispatch 5]).flatten

/-- `Schedule(10, h7)`, which returns id 2, then `2 ^ 64 - 1` rounds: the timer
with id 2 is still pending when the counter comes back to 1. -/
def wrapOps : List (Op Nat) := Op.schedule 10 (some 7) :: rounds (2 ^ 64 - 1)

end Examples

/-! ## Counting the holders and the calls of a handler -/

section Counts

variable {H : Type} [DecidableEq H]

/-- The number of elements of `vec` that hold the handler `h`. -/
def holders (h : H) (vec : List (QueueElement H)) : Nat :=
  vec.countP (fun e => decide (e.handler = some h))

/-- The number of calls of the handler `h` among `calls`. -/
def timesCalled (h : H) (calls : List (H × Bool)) : Nat :=
  calls.countP (fun c => decide (c.1 = h))

/-- The number of `Schedule` calls (either overload) among `ops` that pass the
handler `h`. -/
def timesScheduled (h : H) : List (Op H) → Nat
  | [] => 0
  | .schedule _ h' :: rest => (if h' = some h then 1 else 0) + timesScheduled h rest
  | .scheduleAfter _ _ h' :: rest => (if h' = some h then 1 else 0) + timesScheduled h rest
  | _ :: rest => timesScheduled h rest

/-- A successful `Cancel` in the record superseded an element holding `h`: the
`canceledElement` it pushed carries `h`. -/
def supersededBy (h : H) (log : List (Event H)) : Prop :=
  ∃ now tid ce, Event.cancelled now tid (some ce) ∈ log ∧ ce.handler = some h

/-- The ids other than 0 carried by the elements of `vec`, in order. -/
def carriedIds {H : Type} (vec : List (QueueElement H)) : List Nat :=
  (vec.map (fun e => e.tid)).filter (fun t => decide (t ≠ 0))

end Counts

/-! ## The worker loop and the destructor -/

section Teardown

variable {H : Type}

/-- The loop of `ClearAll`: `while (!queue.empty()) queue.pop();`. No handler is
called. `fuel` bounds the number of iterations. -/
def TimeQueue.clearAllLoop : Nat → List (QueueElement H) → List (QueueElement H)
  | 0, vec => vec
  | fuel + 1, vec =>
    match top vec with
    | some _ => TimeQueue.clearAllLoop fuel (pop vec)
    | none => vec

/-- `ClearAll()`: every iteration pops one element, so `queue.size()` iterations
are enough. -/
def TimeQueue.ClearAll (q : TimeQueue H) : TimeQueue H :=
  ⟨TimeQueue.clearAllLoop q.queue.length q.queue, q.currentTID⟩

/-- The flag `stopWorkerThread`: `false` at construction and set by the handler
`[&](bool) { stopWorkerThread = true; }` that the destructor schedules. With
`stop` the label of that handler, the flag is set once `stop` is among the calls
that `Handle` made on the elements the worker popped. -/
def stopWorkerThread [DecidableEq H] (stop : H) (log : List (Event H)) : Bool :=
  (invocations (handledElements log)).any (fun c => decide (c.1 = stop))

/-- The loop of the worker thread, `while (!stopWorkerThread) { Wait(l);
CallHandlers(l); }`: `nows` lists the clock readings at which `Wait` returns and
`CallHandlers` runs, one per iteration. The loop ends when the flag is set;
when the readings run out the worker is still waiting. -/
def System.workerLoop [DecidableEq H] (stop : H) : List Int → System H → System H
  | [], s => s
  | now :: rest, s =>
    if stopWorkerThread stop s.log then s
    else System.workerLoop stop rest (s.step (Op.dispatch now))

/-- The destructor `~TimeQueue()` at clock reading `now`:
`Schedule(CLOCK::now(), stop)`, then `workerThread.join()`, which returns once
the worker loop has ended, then `ClearAll()`. The result is `none` when the
worker has not seen the flag within the readings `nows`. -/
def System.destructor [DecidableEq H] (stop : H) (now : Int) (nows : List Int)
    (s : System H) : Option (System H) :=
  if stopWorkerThread stop
      (System.workerLoop stop nows (s.step (Op.schedule now (some stop)))).log then
    some ⟨(System.workerLoop stop nows (s.step (Op.schedule now (some stop)))).q.ClearAll,
      (System.workerLoop stop nows (s.step (Op.schedule now (some stop)))).log⟩
  else none

end Teardown

/-! ## The heap operations keep heap order and the elements -/

section HeapLemmas

variable {H : Type}

theorem length_swapAt (vec : List (QueueElement H)) (i j : Nat) :
    (swapAt vec i j).length = vec.length := by
  unfold swapAt
  split <;> simp

theorem getElem?_swapAt (vec : List (QueueElement H)) (i j k : Nat)
    (hi : i < vec.length) (hj : j < vec.length) :
    (swapAt vec i j)[k]? = if k = j then vec[i]? else if k = i then vec[j]? else vec[k]? := by
  unfold swapAt
  have h1 : vec[i]? = some vec[i] := List.getElem?_eq_getElem hi
  have h2 : vec[j]? = some vec[j] := List.getElem?_eq_getElem hj
  rw [h1, h2]
  simp only [List.getElem?_set, List.length_set]
  by_cases hkj : k = j
  · subst hkj; simp [hj]
  · by_cases hki : k = i
    · subst hki
      have : ¬ j = k := fun h => hkj h.symm
      simp [this, hkj, hi]
    · have a1 : ¬ j = k := fun h => hkj h.symm
      have a2 : ¬ i = k := fun h => hki h.symm
      simp [a1, a2, hkj, hki]

theorem keyAt_swapAt (vec : List (QueueElement H)) (i j k : Nat)
    (hi : i < vec.length) (hj : j < vec.length) :
    keyAt (swapAt vec i j) k
      = if k = j then keyAt vec i else if k = i then keyAt vec j else keyAt vec k := by
  unfold keyAt
  rw [getElem?_swapAt vec i j k hi hj]
  split_ifs <;> rfl

theorem swapAt_perm [DecidableEq H] (vec : List (QueueElement H)) (i j : Nat) :
    (swapAt vec i j).Perm vec := by
  unfold swapAt
  split
  · rename_i a b ha hb
    obtain ⟨hi, hai⟩ := List.getElem?_eq_some_iff.mp ha
    obtain ⟨hj, hbj⟩ := List.getElem?_eq_some_iff.mp hb
    rw [List.perm_iff_count]
    intro x
    have hj2 : j < (vec.set i b).length := by simpa using hj
    rw [List.count_set _ _ _ _ hj2, List.count_set _ _ _ _ hi]
    have hget : (vec.set i b)[j] = b := by
      rw [List.getElem_set]
      split_ifs with h
      · rfl
      · exact hbj
    rw [hget, hai]
    have hle : (if (a == x) = true then 1 else 0) ≤ List.count x vec := by
      split_ifs with h
      · have : a = x := by simpa using h
        subst this
        exact List.count_pos_iff.mpr (List.mem_iff_getElem?.mpr ⟨i, ha⟩)
      · exact Nat.zero_le _
    omega
  · exact List.Perm.refl _


theorem siftUp_length (fuel : Nat) (vec : List (QueueElement H)) (i : Nat) :
    (siftUp fuel vec i).length = vec.length := by
  induction fuel generalizing vec i with
  | zero => rfl
  | succ n ih =>
    unfold siftUp
    split_ifs
    · rfl
    · split
      · split_ifs
        · rw [ih, length_swapAt]
        · rfl
      · rfl

theorem siftUp_perm [DecidableEq H] (fuel : Nat) (vec : List (QueueElement H)) (i : Nat) :
    (siftUp fuel vec i).Perm vec := by
  induction fuel generalizing vec i with
  | zero => exact List.Perm.refl _
  | succ n ih =>
    unfold siftUp
    split_ifs
    · exact List.Perm.refl _
    · split
      · split_ifs
        · exact (ih _ _).trans (swapAt_perm _ _ _)
        · exact List.Perm.refl _
      · exact List.Perm.refl _

theorem siftUp_isHeap (fuel : Nat) (vec : List (QueueElement H)) (i : Nat)
    (hfuel : i < fuel) (hi : i < vec.length) (hex : HeapExceptUp vec i) :
    IsHeap (siftUp fuel vec i) := by
  induction fuel generalizing vec i with
  | zero => omega
  | succ n ih =>
    unfold siftUp
    split_ifs with h0
    · subst h0
      intro j hj hpos
      exact hex.1 j hj hpos (by omega)
    · have hp : (i - 1) / 2 < i := by omega
      have hpl : (i - 1) / 2 < vec.length := by omega
      have e1 : vec[(i - 1) / 2]? = some vec[(i - 1) / 2] := List.getElem?_eq_getElem hpl
      have e2 : vec[i]? = some vec[i] := List.getElem?_eq_getElem hi
      have k1 : keyAt vec ((i - 1) / 2) = (vec[(i - 1) / 2]).tp := by simp [keyAt, e1]
      have k2 : keyAt vec i = (vec[i]).tp := by simp [keyAt, e2]
      rw [e1, e2]
      simp only
      split_ifs with hlt
      · have hlt2 : keyAt vec i < keyAt vec ((i - 1) / 2) := by
          rw [k1, k2]; simpa [QueueElement.lt] using hlt
        apply ih _ _ (by omega) (by rw [length_swapAt]; exact hpl)
        have key := fun k => keyAt_swapAt vec ((i - 1) / 2) i k hpl hi
        constructor
        · intro j hj hpos hne
          rw [length_swapAt] at hj
          rw [key, key]
          by_cases hji : j = i
          · subst hji
            simp only [if_true]
            have : ¬ ((j - 1) / 2 = j) := by omega
            simp only [this, if_false, if_true]
            omega
          · have hjp : ¬ ((j - 1) / 2 = i) ∨ (j - 1) / 2 = i := by omega
            simp only [hji, hne, if_false]
            by_cases hm : (j - 1) / 2 = i
            · simp only [hm, if_true]
              have := hex.2 j hj hpos hm (by omega)
              exact this
            · simp only [hm, if_false]
              by_cases hm2 : (j - 1) / 2 = (i - 1) / 2
              · simp only [hm2, if_true]
                have := hex.1 j hj hpos hji
                rw [hm2] at this
                omega
              · simp only [hm2, if_false]
                exact hex.1 j hj hpos hji
        · intro j hj hpos hpar hppos
          rw [length_swapAt] at hj
          rw [key, key]
          have g1 : ¬ (((i - 1) / 2 - 1) / 2 = i) := by omega
          have g2 : ¬ (((i - 1) / 2 - 1) / 2 = (i - 1) / 2) := by omega
          simp only [g1, g2, if_false]
          have hg := hex.1 ((i - 1) / 2) hpl hppos (by omega)
          by_cases hji : j = i
          · simp only [hji, if_true]
            exact hg
          · have : ¬ (j = (i - 1) / 2) := by omega
            simp only [hji, this, if_false]
            have := hex.1 j hj hpos hji
            rw [hpar] at this
            omega
      · have hge : keyAt vec ((i - 1) / 2) ≤ keyAt vec i := by
          rw [k1, k2]
          have : ¬ ((vec[i]).tp < (vec[(i - 1) / 2]).tp) := by simpa [QueueElement.lt] using hlt
          omega
        intro j hj hpos
        by_cases hji : j = i
        · subst hji; exact hge
        · exact hex.1 j hj hpos hji


theorem keyAt_append_left (vec : List (QueueElement H)) (x : QueueElement H) (k : Nat)
    (hk : k < vec.length) : keyAt (vec ++ [x]) k = keyAt vec k := by
  unfold keyAt
  rw [List.getElem?_append_left hk]

theorem push_length (vec : List (QueueElement H)) (x : QueueElement H) :
    (push vec x).length = vec.length + 1 := by
  simp [push, push_heap, siftUp_length]

theorem push_perm [DecidableEq H] (vec : List (QueueElement H)) (x : QueueElement H) :
    (push vec x).Perm (x :: vec) := by
  unfold push push_heap
  exact (siftUp_perm _ _ _).trans (List.perm_append_singleton x vec)

theorem push_isHeap (vec : List (QueueElement H)) (x : QueueElement H) (h : IsHeap vec) :
    IsHeap (push vec x) := by
  unfold push push_heap
  have hlen : (vec ++ [x]).length = vec.length + 1 := by simp
  apply siftUp_isHeap
  · omega
  · omega
  · rw [hlen]
    constructor
    · intro j hj hpos hne
      have hj2 : j < vec.length := by
        have : j ≠ vec.length := by simpa using hne
        omega
      rw [keyAt_append_left _ _ _ hj2, keyAt_append_left _ _ _ (by omega)]
      exact h j hj2 hpos
    · intro j hj hpos hpar _
      simp only [Nat.add_sub_cancel] at hpar
      omega

theorem siftDown_length (fuel : Nat) (vec : List (QueueElement H)) (i : Nat) :
    (siftDown fuel vec i).length = vec.length := by
  induction fuel generalizing vec i with
  | zero => rfl
  | succ n ih =>
    unfold siftDown
    split
    · rfl
    · split
      · split_ifs
        · rfl
        · rw [ih, length_swapAt]
      · rfl

theorem siftDown_perm [DecidableEq H] (fuel : Nat) (vec : List (QueueElement H)) (i : Nat) :
    (siftDown fuel vec i).Perm vec := by
  induction fuel generalizing vec i with
  | zero => exact List.Perm.refl _
  | succ n ih =>
    unfold siftDown
    split
    · exact List.Perm.refl _
    · split
      · split_ifs
        · exact List.Perm.refl _
        · exact (ih _ _).trans (swapAt_perm _ _ _)
      · exact List.Perm.refl _


theorem greaterChild_spec (vec : List (QueueElement H)) (i : Nat) (l : QueueElement H)
    (hl : vec[2 * i + 1]? = some l) :
    (greaterChild vec i l = 2 * i + 1 ∨ greaterChild vec i l = 2 * i + 2) ∧
    greaterChild vec i l < vec.length ∧
    (∀ j, j < vec.length → 0 < j → (j - 1) / 2 = i →
      keyAt vec (greaterChild vec i l) ≤ keyAt vec j) := by
  obtain ⟨hlen, hlv⟩ := List.getElem?_eq_some_iff.mp hl
  have kl : keyAt vec (2 * i + 1) = l.tp := by simp [keyAt, hl]
  unfold greaterChild
  split
  · rename_i r hr
    obtain ⟨hrlen, hrv⟩ := List.getElem?_eq_some_iff.mp hr
    have kr : keyAt vec (2 * i + 2) = r.tp := by simp [keyAt, hr]
    split_ifs with hlt
    · have hlt2 : r.tp < l.tp := by simpa [QueueElement.lt] using hlt
      refine ⟨Or.inr rfl, hrlen, ?_⟩
      intro j hj hpos hpar
      have : j = 2 * i + 1 ∨ j = 2 * i + 2 := by omega
      rcases this with h | h <;> subst h <;> omega
    · have hlt2 : ¬ r.tp < l.tp := by simpa [QueueElement.lt] using hlt
      refine ⟨Or.inl rfl, hlen, ?_⟩
      intro j hj hpos hpar
      have : j = 2 * i + 1 ∨ j = 2 * i + 2 := by omega
      rcases this with h | h <;> subst h <;> omega
  · rename_i hr
    have hrlen : vec.length ≤ 2 * i + 2 := by
      by_contra hcon
      have : vec[2 * i + 2]? = some vec[2 * i + 2] := List.getElem?_eq_getElem (by omega)
      rw [this] at hr
      exact Option.noConfusion hr
    refine ⟨Or.inl rfl, hlen, ?_⟩
    intro j hj hpos hpar
    have : j = 2 * i + 1 := by omega
    subst this
    exact le_refl _

theorem siftDown_isHeap (fuel : Nat) (vec : List (QueueElement H)) (i : Nat)
    (hfuel : vec.length ≤ i + fuel) (hex : HeapExceptDown vec i) :
    IsHeap (siftDown fuel vec i) := by
  induction fuel generalizing vec i with
  | zero =>
    intro j hj hpos
    have hj2 : j < vec.length := hj
    exact hex.1 j hj2 hpos (by omega)
  | succ n ih =>
    unfold siftDown
    split
    · rename_i hnone
      have hlen : vec.length ≤ 2 * i + 1 := by
        by_contra hcon
        have : vec[2 * i + 1]? = some vec[2 * i + 1] := List.getElem?_eq_getElem (by omega)
        rw [this] at hnone
        exact Option.noConfusion hnone
      intro j hj hpos
      exact hex.1 j hj hpos (by omega)
    · rename_i l hl
      obtain ⟨hc, hclen, hmin⟩ := greaterChild_spec vec i l hl
      generalize greaterChild vec i l = child at hc hclen hmin
      have hi : i < vec.length := by omega
      have e1 : vec[child]? = some vec[child] := List.getElem?_eq_getElem hclen
      have e2 : vec[i]? = some vec[i] := List.getElem?_eq_getElem hi
      have k1 : keyAt vec child = (vec[child]).tp := by simp [keyAt, e1]
      have k2 : keyAt vec i = (vec[i]).tp := by simp [keyAt, e2]
      rw [e1, e2]
      simp only
      split_ifs with hlt
      · have hlt2 : keyAt vec i < keyAt vec child := by
          rw [k1, k2]; simpa [QueueElement.lt] using hlt
        intro j hj hpos
        by_cases hpar : (j - 1) / 2 = i
        · have := hmin j hj hpos hpar
          rw [hpar]
          omega
        · exact hex.1 j hj hpos hpar
      · have hge : keyAt vec child ≤ keyAt vec i := by
          rw [k1, k2]
          have : ¬ ((vec[i]).tp < (vec[child]).tp) := by simpa [QueueElement.lt] using hlt
          omega
        apply ih _ _ (by rw [length_swapAt]; omega)
        have key := fun k => keyAt_swapAt vec i child k hi hclen
        constructor
        · intro j hj hpos hne
          rw [length_swapAt] at hj
          rw [key, key]
          have f1 := hex.1 j hj hpos
          have f2 := hmin j hj hpos
          have f4 := hex.2 child hclen (by omega) (by omega)
          split_ifs <;> subst_vars <;> omega
        · intro j hj hpos hpar hcpos
          rw [length_swapAt] at hj
          rw [key, key]
          have f1 := hex.1 j hj hpos (by omega)
          split_ifs <;> subst_vars <;> omega


theorem top_eq_some_iff (vec : List (QueueElement H)) (x : QueueElement H) :
    top vec = some x ↔ ∃ rest, vec = x :: rest := by
  cases vec with
  | nil => simp [top]
  | cons a rest => simp [top]

theorem top_eq_none_iff (vec : List (QueueElement H)) : top vec = none ↔ vec = [] := by
  cases vec <;> simp [top]

theorem isHeap_root_le (vec : List (QueueElement H)) (h : IsHeap vec) (j : Nat)
    (hj : j < vec.length) : keyAt vec 0 ≤ keyAt vec j := by
  induction j using Nat.strong_induction_on with
  | _ j ih =>
    by_cases hpos : 0 < j
    · have h1 := h j hj hpos
      have h2 := ih ((j - 1) / 2) (by omega) (by omega)
      omega
    · have : j = 0 := by omega
      subst this
      exact le_refl _

/-- In heap order the front element has the least deadline of the container. -/
theorem top_min (vec : List (QueueElement H)) (h : IsHeap vec) (x : QueueElement H)
    (hx : top vec = some x) : ∀ e ∈ vec, x.tp ≤ e.tp := by
  intro e he
  obtain ⟨j, hj⟩ := List.mem_iff_getElem?.mp he
  obtain ⟨hjl, _⟩ := List.getElem?_eq_some_iff.mp hj
  have := isHeap_root_le vec h j hjl
  have k0 : keyAt vec 0 = x.tp := by
    have : vec[0]? = some x := by rw [← List.head?_eq_getElem?]; exact hx
    simp [keyAt, this]
  have kj : keyAt vec j = e.tp := by simp [keyAt, hj]
  omega

theorem pop_length (vec : List (QueueElement H)) : (pop vec).length = vec.length - 1 := by
  match vec with
  | [] => rfl
  | [_] => rfl
  | _ :: y :: rest => simp [pop, siftDown_length]

theorem pop_perm [DecidableEq H] (vec : List (QueueElement H)) (x : QueueElement H)
    (hx : top vec = some x) : vec.Perm (x :: pop vec) := by
  match vec, hx with
  | [a], hx =>
    have : a = x := by simpa [top] using hx
    subst this
    exact List.Perm.refl _
  | a :: y :: rest, hx =>
    have : a = x := by simpa [top] using hx
    subst this
    unfold pop
    refine List.Perm.cons _ ?_
    refine List.Perm.symm ((siftDown_perm _ _ _).trans ?_)
    have hne : y :: rest ≠ [] := List.cons_ne_nil y rest
    have h1 : ((y :: rest).getLast hne :: (y :: rest).dropLast).Perm
        ((y :: rest).dropLast ++ [(y :: rest).getLast hne]) :=
      (List.perm_append_singleton _ _).symm
    rw [List.dropLast_append_getLast hne] at h1
    exact h1

theorem pop_isHeap (vec : List (QueueElement H)) (h : IsHeap vec) : IsHeap (pop vec) := by
  match vec, h with
  | [], _ => intro j hj; simp [pop] at hj
  | [_], _ => intro j hj; simp [pop] at hj
  | x :: y :: rest, h =>
    unfold pop
    have hne : y :: rest ≠ [] := List.cons_ne_nil y rest
    have hk : ∀ k, 0 < k → k < rest.length + 1 →
        keyAt ((y :: rest).getLast hne :: (y :: rest).dropLast) k = keyAt (x :: y :: rest) k := by
      intro k hk0 hk1
      obtain ⟨m, rfl⟩ : ∃ m, k = m + 1 := ⟨k - 1, by omega⟩
      unfold keyAt
      have hm : m < (y :: rest).length - 1 := by simp; omega
      simp only [List.getElem?_cons_succ, List.getElem?_dropLast, hm, if_true]
    apply siftDown_isHeap
    · simp
    · constructor
      · intro j hj hpos hne0
        have hj2 : j < rest.length + 1 := by simpa using hj
        rw [hk j hpos hj2, hk ((j - 1) / 2) (by omega) (by omega)]
        exact h j (by simp; omega) hpos
      · intro j _ _ _ h0
        omega

end HeapLemmas

/-! ## Cancel -/

section CancelLemmas

variable {H : Type}

theorem cancelLoop_eq_none_iff (now : Int) (tid : Nat) (vec : List (QueueElement H)) :
    TimeQueue.cancelLoop now tid vec = none ↔ ∀ e ∈ vec, e.tid ≠ tid := by
  induction vec with
  | nil => simp [TimeQueue.cancelLoop]
  | cons a rest ih =>
    unfold TimeQueue.cancelLoop
    by_cases ha : a.tid = tid
    · simp [ha]
    · simp only [ha, if_false, List.mem_cons, forall_eq_or_imp, ne_eq, not_false_eq_true,
        true_and]
      rw [← ih]
      cases hrest : TimeQueue.cancelLoop now tid rest with
      | none => simp
      | some p => simp

theorem cancelLoop_eq_some (now : Int) (tid : Nat) (vec : List (QueueElement H))
    (ce : QueueElement H) (vec' : List (QueueElement H))
    (h : TimeQueue.cancelLoop now tid vec = some (ce, vec')) :
    ∃ pre e post, vec = pre ++ e :: post ∧ (∀ x ∈ pre, x.tid ≠ tid) ∧ e.tid = tid ∧
      ce = ⟨now, tid, true, e.handler⟩ ∧ vec' = pre ++ ⟨e.tp, 0, true, none⟩ :: post := by
  induction vec generalizing vec' with
  | nil => simp [TimeQueue.cancelLoop] at h
  | cons a rest ih =>
    unfold TimeQueue.cancelLoop at h
    by_cases ha : a.tid = tid
    · simp only [ha, if_true, Option.some.injEq, Prod.mk.injEq] at h
      refine ⟨[], a, rest, rfl, by simp, ha, ?_, ?_⟩
      · rw [← h.1, ← ha]; rfl
      · rw [← h.2]; rfl
    · simp only [ha, if_false] at h
      cases hrest : TimeQueue.cancelLoop now tid rest with
      | none => rw [hrest] at h; simp at h
      | some p =>
        obtain ⟨ce2, rest'⟩ := p
        rw [hrest] at h
        simp only [Option.some.injEq, Prod.mk.injEq] at h
        obtain ⟨hce, hvec⟩ := h
        subst hce
        obtain ⟨pre, e, post, h1, h2, h3, h4, h5⟩ := ih rest' hrest
        refine ⟨a :: pre, e, post, by rw [h1]; rfl, ?_, h3, h4, ?_⟩
        · intro x hx
          rcases List.mem_cons.mp hx with hx | hx
          · rw [hx]; exact ha
          · exact h2 x hx
        · rw [← hvec, h5]; rfl

theorem Cancel_snd (q : TimeQueue H) (now : Int) (tid : Nat) :
    (q.Cancel now tid).2 = (TimeQueue.cancelLoop now tid q.queue).isSome := by
  unfold TimeQueue.Cancel
  cases TimeQueue.cancelLoop now tid q.queue with
  | none => rfl
  | some p => rfl

theorem Cancel_snd_true_iff (q : TimeQueue H) (now : Int) (tid : Nat) :
    (q.Cancel now tid).2 = true ↔ ∃ e ∈ q.queue, e.tid = tid := by
  rw [Cancel_snd]
  constructor
  · intro h
    by_contra hcon
    have : TimeQueue.cancelLoop now tid q.queue = none := by
      rw [cancelLoop_eq_none_iff]
      intro e he het
      exact hcon ⟨e, he, het⟩
    rw [this] at h
    simp at h
  · rintro ⟨e, he, het⟩
    cases hc : TimeQueue.cancelLoop now tid q.queue with
    | none => exact absurd het ((cancelLoop_eq_none_iff now tid q.queue).mp hc e he)
    | some p => rfl

theorem Cancel_of_some (q : TimeQueue H) (now : Int) (tid : Nat) (ce : QueueElement H)
    (vec' : List (QueueElement H)) (h : TimeQueue.cancelLoop now tid q.queue = some (ce, vec')) :
    q.Cancel now tid = (⟨push vec' ce, q.currentTID⟩, true) := by
  unfold TimeQueue.Cancel
  rw [h]

theorem Cancel_of_none (q : TimeQueue H) (now : Int) (tid : Nat)
    (h : TimeQueue.cancelLoop now tid q.queue = none) : q.Cancel now tid = (q, false) := by
  unfold TimeQueue.Cancel
  rw [h]

end CancelLemmas

/-! ## Runs: the id counter and the ids returned -/

section RunLemmas

variable {H : Type}

theorem run_nil (s : System H) : s.run [] = s := rfl

theorem run_cons (s : System H) (op : Op H) (ops : List (Op H)) :
    s.run (op :: ops) = (s.step op).run ops := rfl

theorem run_append (s : System H) (ops₁ ops₂ : List (Op H)) :
    s.run (ops₁ ++ ops₂) = (s.run ops₁).run ops₂ := by
  unfold System.run
  rw [List.foldl_append]

theorem run_snoc (s : System H) (ops : List (Op H)) (op : Op H) :
    s.run (ops ++ [op]) = (s.run ops).step op := by
  rw [run_append]; rfl

theorem scheduleCalls_append (ops₁ ops₂ : List (Op H)) :
    scheduleCalls (ops₁ ++ ops₂) = scheduleCalls ops₁ + scheduleCalls ops₂ := by
  induction ops₁ with
  | nil => simp [scheduleCalls]
  | cons op rest ih =>
    cases op <;> simp [scheduleCalls, ih] <;> omega

theorem scheduledIds_append (l₁ l₂ : List (Event H)) :
    scheduledIds (l₁ ++ l₂) = scheduledIds l₁ ++ scheduledIds l₂ := by
  induction l₁ with
  | nil => rfl
  | cons ev rest ih => cases ev <;> simp [scheduledIds, ih]

theorem scheduledIds_map_handled (es : List (QueueElement H)) :
    scheduledIds (es.map Event.handled) = [] := by
  induction es with
  | nil => rfl
  | cons e rest ih => simpa [scheduledIds] using ih

theorem Schedule_snd (q : TimeQueue H) (tp : Int) (h : Option H) :
    (q.Schedule tp h).2 = (q.currentTID + 1) % TimerIDSize := rfl

theorem Schedule_currentTID (q : TimeQueue H) (tp : Int) (h : Option H) :
    (q.Schedule tp h).1.currentTID = (q.currentTID + 1) % TimerIDSize := rfl

theorem Schedule_queue (q : TimeQueue H) (tp : Int) (h : Option H) :
    (q.Schedule tp h).1.queue = push q.queue ⟨tp, (q.currentTID + 1) % TimerIDSize, false, h⟩ :=
  rfl

theorem Cancel_currentTID (q : TimeQueue H) (now : Int) (tid : Nat) :
    (q.Cancel now tid).1.currentTID = q.currentTID := by
  unfold TimeQueue.Cancel
  cases TimeQueue.cancelLoop now tid q.queue with
  | none => rfl
  | some p => rfl

theorem CallHandlers_currentTID (q : TimeQueue H) (now : Int) :
    (q.CallHandlers now).1.currentTID = q.currentTID := rfl

/-- The counter after a run: it has been incremented once per `Schedule` call. -/
theorem run_currentTID (s : System H) (ops : List (Op H)) :
    (s.run ops).q.currentTID % TimerIDSize
      = (s.q.currentTID + scheduleCalls ops) % TimerIDSize := by
  induction ops generalizing s with
  | nil => rfl
  | cons op rest ih =>
    rw [run_cons, ih]
    cases op with
    | schedule tp h =>
      simp only [System.step, Schedule_currentTID, scheduleCalls]
      unfold TimerIDSize
      omega
    | scheduleAfter now d h =>
      simp only [System.step, TimeQueue.ScheduleAfter, Schedule_currentTID, scheduleCalls]
      unfold TimerIDSize
      omega
    | cancel now tid =>
      simp only [System.step, Cancel_currentTID, scheduleCalls]
    | dispatch now =>
      simp only [System.step, CallHandlers_currentTID, scheduleCalls]

/-- The ids returned during a run: the `k`-th `Schedule` call of the run
returns the counter at the start plus `k + 1`, modulo `2 ^ 64`. -/
theorem run_scheduledIds (s : System H) (ops : List (Op H)) :
    scheduledIds (s.run ops).log
      = scheduledIds s.log
        ++ (List.range (scheduleCalls ops)).map
            (fun k => (s.q.currentTID + 1 + k) % TimerIDSize) := by
  induction ops generalizing s with
  | nil => simp [run_nil, scheduleCalls]
  | cons op rest ih =>
    rw [run_cons, ih]
    have hsched : ∀ (tp : Int) (h : Option H) (lg : List (Event H)),
        scheduledIds (s.log ++ [Event.scheduled tp h ((s.q.currentTID + 1) % TimerIDSize)])
            ++ (List.range (scheduleCalls rest)).map
              (fun k => ((s.q.currentTID + 1) % TimerIDSize + 1 + k) % TimerIDSize)
          = scheduledIds s.log
            ++ (List.range (scheduleCalls rest + 1)).map
              (fun k => (s.q.currentTID + 1 + k) % TimerIDSize) := by
      intro tp h _
      rw [scheduledIds_append, List.range_succ_eq_map, List.map_cons, List.map_map]
      simp only [scheduledIds, List.append_assoc, List.singleton_append, Nat.add_zero]
      congr 2
      apply List.map_congr_left
      intro k _
      simp only [Function.comp]
      unfold TimerIDSize
      omega
    cases op with
    | schedule tp h =>
      simp only [System.step, Schedule_currentTID, Schedule_snd, scheduleCalls]
      exact hsched tp h []
    | scheduleAfter now d h =>
      simp only [System.step, TimeQueue.ScheduleAfter, Schedule_currentTID, Schedule_snd,
        scheduleCalls]
      exact hsched (now + d) h []
    | cancel now tid =>
      simp only [System.step, Cancel_currentTID, scheduleCalls, scheduledIds_append,
        scheduledIds, List.append_nil]
    | dispatch now =>
      simp only [System.step, CallHandlers_currentTID, scheduleCalls, scheduledIds_append,
        scheduledIds_map_handled, List.append_nil]

end RunLemmas

/-! ## One pass of `CallHandlers` -/

section DispatchLemmas

variable {H : Type}

theorem callHandlersLoop_perm [DecidableEq H] (now : Int) (fuel : Nat)
    (vec : List (QueueElement H)) :
    vec.Perm ((TimeQueue.callHandlersLoop now fuel vec).2
      ++ (TimeQueue.callHandlersLoop now fuel vec).1) := by
  induction fuel generalizing vec with
  | zero => exact List.Perm.refl _
  | succ n ih =>
    unfold TimeQueue.callHandlersLoop
    cases ht : top vec with
    | none => exact List.Perm.refl _
    | some e =>
      simp only
      split_ifs with hlt
      · exact (pop_perm vec e ht).trans (List.Perm.cons e (ih (pop vec)))
      · exact List.Perm.refl _

theorem callHandlersLoop_popped_lt (now : Int) (fuel : Nat) (vec : List (QueueElement H)) :
    ∀ e ∈ (TimeQueue.callHandlersLoop now fuel vec).2, e.tp < now := by
  induction fuel generalizing vec with
  | zero => intro e he; simp [TimeQueue.callHandlersLoop] at he
  | succ n ih =>
    unfold TimeQueue.callHandlersLoop
    cases ht : top vec with
    | none => intro e he; simp at he
    | some x =>
      simp only
      split_ifs with hlt
      · intro e he
        rcases List.mem_cons.mp he with h | h
        · rw [h]; exact hlt
        · exact ih (pop vec) e h
      · intro e he; simp at he

theorem callHandlersLoop_isHeap (now : Int) (fuel : Nat) (vec : List (QueueElement H))
    (h : IsHeap vec) : IsHeap (TimeQueue.callHandlersLoop now fuel vec).1 := by
  induction fuel generalizing vec with
  | zero => exact h
  | succ n ih =>
    unfold TimeQueue.callHandlersLoop
    cases ht : top vec with
    | none => exact h
    | some x =>
      simp only
      split_ifs with hlt
      · exact ih (pop vec) (pop_isHeap vec h)
      · exact h

/-- With `queue.size()` iterations allowed the loop ends by its own condition:
the queue is empty or its front element is not before `now`. -/
theorem callHandlersLoop_exit (now : Int) (fuel : Nat) (vec : List (QueueElement H))
    (hfuel : vec.length ≤ fuel) :
    ∀ e, top (TimeQueue.callHandlersLoop now fuel vec).1 = some e → now ≤ e.tp := by
  induction fuel generalizing vec with
  | zero =>
    intro e he
    have : vec = [] := List.length_eq_zero.mp (by omega)
    subst this
    simp [TimeQueue.callHandlersLoop, top] at he
  | succ n ih =>
    unfold TimeQueue.callHandlersLoop
    cases ht : top vec with
    | none => intro e he; simp only at he; rw [ht] at he; exact Option.noConfusion he
    | some x =>
      simp only
      split_ifs with hlt
      · exact ih (pop vec) (by rw [pop_length]; omega)
      · intro e he
        simp only at he
        rw [ht] at he
        have : x = e := Option.some.inj he
        subst this
        omega

theorem callHandlersLoop_remaining_ge (now : Int) (fuel : Nat) (vec : List (QueueElement H))
    (hfuel : vec.length ≤ fuel) (h : IsHeap vec) :
    ∀ e ∈ (TimeQueue.callHandlersLoop now fuel vec).1, now ≤ e.tp := by
  intro e he
  have hheap := callHandlersLoop_isHeap now fuel vec h
  cases ht : top (TimeQueue.callHandlersLoop now fuel vec).1 with
  | none =>
    rw [top_eq_none_iff] at ht
    rw [ht] at he
    simp at he
  | some x =>
    have h1 := callHandlersLoop_exit now fuel vec hfuel x ht
    have h2 := top_min _ hheap x ht e he
    omega

theorem callHandlersLoop_sorted [DecidableEq H] (now : Int) (fuel : Nat)
    (vec : List (QueueElement H)) (h : IsHeap vec) :
    (TimeQueue.callHandlersLoop now fuel vec).2.Pairwise (fun a b => a.tp ≤ b.tp) := by
  induction fuel generalizing vec with
  | zero => simp [TimeQueue.callHandlersLoop]
  | succ n ih =>
    unfold TimeQueue.callHandlersLoop
    cases ht : top vec with
    | none => simp
    | some x =>
      simp only
      split_ifs with hlt
      · refine List.Pairwise.cons ?_ (ih (pop vec) (pop_isHeap vec h))
        intro e he
        apply top_min vec h x ht e
        have h1 : e ∈ (TimeQueue.callHandlersLoop now n (pop vec)).2
            ++ (TimeQueue.callHandlersLoop now n (pop vec)).1 :=
          List.mem_append_left _ he
        have h2 : e ∈ pop vec := (callHandlersLoop_perm now n (pop vec)).mem_iff.mpr h1
        exact (pop_perm vec x ht).mem_iff.mpr (List.mem_cons_of_mem _ h2)
      · simp

/-- When every element is before `now`, one pass empties the queue. -/
theorem callHandlersLoop_drains (now : Int) (fuel : Nat) (vec : List (QueueElement H))
    (hfuel : vec.length ≤ fuel) (hall : ∀ e ∈ vec, e.tp < now) [DecidableEq H] :
    (TimeQueue.callHandlersLoop now fuel vec).1 = [] := by
  cases ht : top (TimeQueue.callHandlersLoop now fuel vec).1 with
  | none => exact (top_eq_none_iff _).mp ht
  | some x =>
    exfalso
    have h1 := callHandlersLoop_exit now fuel vec hfuel x ht
    obtain ⟨rest, hrest⟩ := (top_eq_some_iff _ x).mp ht
    have hx : x ∈ vec := by
      apply (callHandlersLoop_perm now fuel vec).mem_iff.mpr
      apply List.mem_append_right
      rw [hrest]
      exact List.mem_cons_self _ _
    have := hall x hx
    omega

end DispatchLemmas

/-! ## Invariants of runs -/

section Invariants

variable {H : Type}

theorem keyAt_replace (pre post : List (QueueElement H)) (a b : QueueElement H)
    (hab : a.tp = b.tp) (k : Nat) :
    keyAt (pre ++ a :: post) k = keyAt (pre ++ b :: post) k := by
  unfold keyAt
  by_cases hk : k < pre.length
  · rw [List.getElem?_append_left hk, List.getElem?_append_left hk]
  · have hk2 : pre.length ≤ k := by omega
    rw [List.getElem?_append_right hk2, List.getElem?_append_right hk2]
    cases hm : k - pre.length with
    | zero => simp [hab]
    | succ m => simp

theorem cancelLoop_isHeap (now : Int) (tid : Nat) (vec vec' : List (QueueElement H))
    (ce : QueueElement H) (hc : TimeQueue.cancelLoop now tid vec = some (ce, vec'))
    (h : IsHeap vec) : IsHeap vec' := by
  obtain ⟨pre, e, post, h1, _, _, _, h5⟩ := cancelLoop_eq_some now tid vec ce vec' hc
  subst h1 h5
  intro j hj hpos
  have hj2 : j < (pre ++ e :: post).length := by simpa using hj
  have := h j hj2 hpos
  rw [keyAt_replace pre post e ⟨e.tp, 0, true, none⟩ rfl,
    keyAt_replace pre post e ⟨e.tp, 0, true, none⟩ rfl] at this
  exact this

theorem Cancel_isHeap (q : TimeQueue H) (now : Int) (tid : Nat) (h : IsHeap q.queue) :
    IsHeap (q.Cancel now tid).1.queue := by
  cases hc : TimeQueue.cancelLoop now tid q.queue with
  | none => rw [Cancel_of_none q now tid hc]; exact h
  | some p =>
    obtain ⟨ce, vec'⟩ := p
    rw [Cancel_of_some q now tid ce vec' hc]
    exact push_isHeap _ _ (cancelLoop_isHeap now tid q.queue vec' ce hc h)

theorem step_isHeap (s : System H) (op : Op H) (h : IsHeap s.q.queue) :
    IsHeap (s.step op).q.queue := by
  cases op with
  | schedule tp hd => exact push_isHeap _ _ h
  | scheduleAfter now d hd => exact push_isHeap _ _ h
  | cancel now tid => exact Cancel_isHeap s.q now tid h
  | dispatch now => exact callHandlersLoop_isHeap now _ _ h

theorem run_isHeap (s : System H) (ops : List (Op H)) (h : IsHeap s.q.queue) :
    IsHeap (s.run ops).q.queue := by
  induction ops generalizing s with
  | nil => exact h
  | cons op rest ih => rw [run_cons]; exact ih _ (step_isHeap s op h)

theorem init_isHeap : IsHeap (System.init : System H).q.queue := by
  intro j hj
  simp [System.init, TimeQueue.init] at hj

theorem run_currentTID_lt (s : System H) (ops : List (Op H))
    (h : s.q.currentTID < TimerIDSize) : (s.run ops).q.currentTID < TimerIDSize := by
  induction ops generalizing s with
  | nil => exact h
  | cons op rest ih =>
    rw [run_cons]
    apply ih
    cases op with
    | schedule tp hd => exact Nat.mod_lt _ (by unfold TimerIDSize; omega)
    | scheduleAfter now d hd => exact Nat.mod_lt _ (by unfold TimerIDSize; omega)
    | cancel now tid => simp only [System.step, Cancel_currentTID]; exact h
    | dispatch now => exact h

theorem init_run_currentTID (ops : List (Op H)) :
    ((System.init : System H).run ops).q.currentTID = (1 + scheduleCalls ops) % TimerIDSize := by
  have h1 := run_currentTID_lt (System.init : System H) ops
    (by simp [System.init, TimeQueue.init, TimerIDSize])
  have h2 := run_currentTID (System.init : System H) ops
  rw [Nat.mod_eq_of_lt h1] at h2
  exact h2

theorem init_run_scheduledIds (ops : List (Op H)) :
    scheduledIds ((System.init : System H).run ops).log
      = (List.range (scheduleCalls ops)).map (fun k => (k + 2) % TimerIDSize) := by
  rw [run_scheduledIds]
  simp only [System.init, TimeQueue.init, scheduledIds, List.nil_append]
  apply List.map_congr_left
  intro k _
  congr 1
  omega

theorem init_run_isHeap (ops : List (Op H)) : IsHeap ((System.init : System H).run ops).q.queue :=
  run_isHeap _ ops init_isHeap

/-- The elements a run of `Schedule` calls adds to the container, each with
its deadline, its handler and `aborted = false`. -/
theorem run_schedules_perm [DecidableEq H] (s : System H) (subs : List (Int × Option H)) :
    ((s.run (subs.map (fun p => Op.schedule p.1 p.2))).q.queue.map
        (fun e => (e.tp, e.handler, e.aborted))).Perm
      (s.q.queue.map (fun e => (e.tp, e.handler, e.aborted))
        ++ subs.map (fun p => (p.1, p.2, false))) := by
  induction subs generalizing s with
  | nil => simp [run_nil]
  | cons p rest ih =>
    rw [List.map_cons, run_cons]
    refine (ih _).trans ?_
    simp only [System.step, Schedule_queue, List.map_cons]
    refine (List.Perm.append_right _ ((push_perm _ _).map _)).trans ?_
    simp only [List.map_cons, List.cons_append]
    exact List.perm_middle.symm

/-- What one pass of `CallHandlers` does on a container in heap order: it pops
exactly the elements with a deadline strictly before `now`, in non-decreasing
deadline order, and keeps the others in heap order. -/
theorem CallHandlers_spec [DecidableEq H] (q : TimeQueue H) (now : Int) (h : IsHeap q.queue) :
    q.queue.Perm ((q.CallHandlers now).2 ++ (q.CallHandlers now).1.queue) ∧
    (∀ e ∈ (q.CallHandlers now).2, e.tp < now) ∧
    (∀ e ∈ (q.CallHandlers now).1.queue, now ≤ e.tp) ∧
    (q.CallHandlers now).2.Pairwise (fun a b => a.tp ≤ b.tp) ∧
    IsHeap (q.CallHandlers now).1.queue :=
  ⟨callHandlersLoop_perm now _ _, callHandlersLoop_popped_lt now _ _,
    callHandlersLoop_remaining_ge now _ _ (le_refl _) h, callHandlersLoop_sorted now _ _ h,
    callHandlersLoop_isHeap now _ _ h⟩

end Invariants

/-! ## The record of handled elements -/

section LogLemmas

variable {H : Type}

theorem handledElements_append (l₁ l₂ : List (Event H)) :
    handledElements (l₁ ++ l₂) = handledElements l₁ ++ handledElements l₂ := by
  induction l₁ with
  | nil => rfl
  | cons ev rest ih => cases ev <;> simp [handledElements, ih]

theorem handledElements_map_handled (es : List (QueueElement H)) :
    handledElements (es.map Event.handled) = es := by
  induction es with
  | nil => rfl
  | cons e rest ih => simp [handledElements, ih]

theorem step_handledElements (s : System H) (op : Op H) :
    handledElements (s.step op).log = handledElements s.log ++
      (match op with
        | Op.dispatch now => (s.q.CallHandlers now).2
        | _ => []) := by
  cases op <;>
    simp [System.step, handledElements_append, handledElements_map_handled, handledElements]

theorem run_schedules_handledElements (s : System H) (subs : List (Int × Option H)) :
    handledElements (s.run (subs.map (fun p => Op.schedule p.1 p.2))).log
      = handledElements s.log := by
  induction subs generalizing s with
  | nil => rfl
  | cons p rest ih =>
    rw [List.map_cons, run_cons, ih, step_handledElements]
    simp

/-- Worker passes at any clock readings `nows`, with no other call in between,
pop elements in non-decreasing deadline order over all the passes together. -/
theorem run_dispatches [DecidableEq H] (nows : List Int) (s : System H) (h : IsHeap s.q.queue) :
    ∃ newly : List (QueueElement H),
      handledElements (s.run (nows.map Op.dispatch)).log = handledElements s.log ++ newly ∧
      newly.Pairwise (fun a b => a.tp ≤ b.tp) ∧
      s.q.queue.Perm (newly ++ (s.run (nows.map Op.dispatch)).q.queue) ∧
      IsHeap (s.run (nows.map Op.dispatch)).q.queue := by
  induction nows generalizing s with
  | nil => exact ⟨[], by simp [run_nil], List.Pairwise.nil, by simp [run_nil], h⟩
  | cons now rest ih =>
    obtain ⟨hperm, hlt, hge, hsorted, hheap⟩ := CallHandlers_spec s.q now h
    obtain ⟨newly, h1, h2, h3, h4⟩ := ih (s.step (Op.dispatch now)) hheap
    rw [List.map_cons, run_cons]
    refine ⟨(s.q.CallHandlers now).2 ++ newly, ?_, ?_, ?_, h4⟩
    · rw [h1, step_handledElements, List.append_assoc]
    · rw [List.pairwise_append]
      refine ⟨hsorted, h2, ?_⟩
      intro a ha b hb
      have h5 : b ∈ (s.q.CallHandlers now).1.queue :=
        h3.mem_iff.mpr (List.mem_append_left _ hb)
      have := hlt a ha
      have := hge b h5
      omega
    · rw [List.append_assoc]
      exact hperm.trans (List.Perm.append_left _ h3)

theorem step_log_mono (s : System H) (op : Op H) (ev : Event H) (h : ev ∈ s.log) :
    ev ∈ (s.step op).log := by
  cases op <;> exact List.mem_append_left _ h

/-- The `Cancel` results in the record after one call. -/
theorem mem_step_cancelled (s : System H) (op : Op H) (now : Int) (tid : Nat)
    (ce : QueueElement H) (h : Event.cancelled now tid (some ce) ∈ (s.step op).log) :
    Event.cancelled now tid (some ce) ∈ s.log ∨
      ∃ vec', op = Op.cancel now tid ∧
        TimeQueue.cancelLoop now tid s.q.queue = some (ce, vec') := by
  cases op with
  | schedule tp h' =>
    rcases List.mem_append.mp h with h1 | h1
    · exact Or.inl h1
    · simp at h1
  | scheduleAfter n d h' =>
    rcases List.mem_append.mp h with h1 | h1
    · exact Or.inl h1
    · simp at h1
  | cancel n t =>
    rcases List.mem_append.mp h with h1 | h1
    · exact Or.inl h1
    · right
      simp only [List.mem_singleton, Event.cancelled.injEq] at h1
      obtain ⟨hn, ht, hce⟩ := h1
      subst hn ht
      cases hc : TimeQueue.cancelLoop now tid s.q.queue with
      | none => rw [hc] at hce; simp at hce
      | some p =>
        obtain ⟨ce2, vec'⟩ := p
        rw [hc] at hce
        simp only [Option.map_some', Option.some.injEq] at hce
        exact ⟨vec', rfl, by rw [hce]⟩
  | dispatch n =>
    rcases List.mem_append.mp h with h1 | h1
    · exact Or.inl h1
    · simp at h1

/-- Every `canceledElement` of the record is `{now, tid, true, handler}`. -/
theorem cancelled_shape (ops : List (Op H)) (now : Int) (tid : Nat) (ce : QueueElement H)
    (h : Event.cancelled now tid (some ce) ∈ (System.init.run ops).log) :
    ce.aborted = true ∧ ce.tid = tid ∧ ce.tp = now := by
  induction ops using List.reverseRecOn with
  | nil => simp [run_nil, System.init] at h
  | append_singleton ops op ih =>
    rw [run_snoc] at h
    rcases mem_step_cancelled _ op now tid ce h with h1 | ⟨vec', _, hc⟩
    · exact ih h1
    · obtain ⟨_, x, _, _, _, _, h4, _⟩ := cancelLoop_eq_some now tid _ ce vec' hc
      rw [h4]
      exact ⟨rfl, rfl, rfl⟩

theorem supersededBy_step (h : H) (s : System H) (op : Op H)
    (hs : supersededBy h (s.step op).log) :
    supersededBy h s.log ∨ ∃ now tid ce vec', op = Op.cancel now tid ∧
      TimeQueue.cancelLoop now tid s.q.queue = some (ce, vec') ∧ ce.handler = some h := by
  obtain ⟨now, tid, ce, hmem, hce⟩ := hs
  rcases mem_step_cancelled s op now tid ce hmem with h1 | ⟨vec', hop, hc⟩
  · exact Or.inl ⟨now, tid, ce, h1, hce⟩
  · exact Or.inr ⟨now, tid, ce, vec', hop, hc, hce⟩

end LogLemmas

/-! ## The elements of the container after each call -/

section Members

variable {H : Type} [DecidableEq H]

theorem mem_push (vec : List (QueueElement H)) (x e : QueueElement H) :
    e ∈ push vec x ↔ e = x ∨ e ∈ vec := by
  rw [(push_perm vec x).mem_iff, List.mem_cons]

theorem mem_Cancel (q : TimeQueue H) (now : Int) (tid : Nat) (e : QueueElement H)
    (he : e ∈ (q.Cancel now tid).1.queue) :
    e ∈ q.queue ∨ ∃ ce vec' x, TimeQueue.cancelLoop now tid q.queue = some (ce, vec') ∧
      x ∈ q.queue ∧ x.tid = tid ∧ ce = ⟨now, tid, true, x.handler⟩ ∧
      (e = ce ∨ e = ⟨x.tp, 0, true, none⟩) := by
  cases hc : TimeQueue.cancelLoop now tid q.queue with
  | none => rw [Cancel_of_none q now tid hc] at he; exact Or.inl he
  | some p =>
    obtain ⟨ce, vec'⟩ := p
    rw [Cancel_of_some q now tid ce vec' hc] at he
    obtain ⟨pre, x, post, h1, _, h3, h4, h5⟩ := cancelLoop_eq_some now tid q.queue ce vec' hc
    have hx : x ∈ q.queue := by rw [h1]; simp
    rcases (mem_push _ _ _).mp he with h | h
    · exact Or.inr ⟨ce, vec', x, rfl, hx, h3, h4, Or.inl h⟩
    · rw [h5] at h
      rcases List.mem_append.mp h with h | h
      · left; rw [h1]; exact List.mem_append_left _ h
      · rcases List.mem_cons.mp h with h | h
        · exact Or.inr ⟨ce, vec', x, rfl, hx, h3, h4, Or.inr h⟩
        · left; rw [h1]; exact List.mem_append_right _ (List.mem_cons_of_mem _ h)

theorem mem_CallHandlers_queue (q : TimeQueue H) (now : Int) (e : QueueElement H)
    (he : e ∈ (q.CallHandlers now).1.queue) : e ∈ q.queue :=
  (callHandlersLoop_perm now q.queue.length q.queue).mem_iff.mpr (List.mem_append_right _ he)

theorem mem_CallHandlers_popped (q : TimeQueue H) (now : Int) (e : QueueElement H)
    (he : e ∈ (q.CallHandlers now).2) : e ∈ q.queue :=
  (callHandlersLoop_perm now q.queue.length q.queue).mem_iff.mpr (List.mem_append_left _ he)

/-- Before the counter wraps, no element carries an id above the counter. -/
theorem init_run_tid_le (ops : List (Op H)) (hb : scheduleCalls ops ≤ 2 ^ 64 - 2) :
    ∀ e ∈ ((System.init : System H).run ops).q.queue, e.tid ≤ 1 + scheduleCalls ops := by
  induction ops using List.reverseRecOn with
  | nil => intro e he; simp [run_nil, System.init, TimeQueue.init] at he
  | append_singleton ops op ih =>
    rw [scheduleCalls_append] at hb ⊢
    have ih' := ih (by omega)
    have hc := init_run_currentTID ops
    rw [run_snoc]
    have hsched : ∀ (tp : Int) (h : Option H),
        ∀ e ∈ ((System.init.run ops).q.Schedule tp h).1.queue,
          e.tid ≤ 1 + (scheduleCalls ops + 1) := by
      intro tp h e he
      rw [Schedule_queue] at he
      rcases (mem_push _ _ _).mp he with h1 | h1
      · rw [h1, hc]
        simp only
        unfold TimerIDSize
        omega
      · have := ih' e h1; omega
    cases op with
    | schedule tp h => exact hsched tp h
    | scheduleAfter now d h => exact hsched (now + d) h
    | cancel now tid =>
      intro e he
      simp only [scheduleCalls, Nat.add_zero]
      rcases mem_Cancel _ now tid e he with h1 | ⟨ce, vec', x, _, hx, hxt, hce, h1 | h1⟩
      · exact ih' e h1
      · rw [h1, hce]; simp only; rw [← hxt]; exact ih' x hx
      · rw [h1]; simp only; omega
    | dispatch now =>
      intro e he
      simp only [scheduleCalls, Nat.add_zero]
      exact ih' e (mem_CallHandlers_queue _ now e he)

end Members

/-! ## The counter wrapping around -/

section Wrap

theorem rounds_succ (n : Nat) :
    rounds (n + 1) = Op.schedule 0 none :: Op.dispatch 5 :: rounds n := by
  simp [rounds, List.replicate_succ]

theorem scheduleCalls_rounds (n : Nat) : scheduleCalls (rounds n) = n := by
  induction n with
  | zero => simp [rounds, scheduleCalls]
  | succ n ih => rw [rounds_succ]; simp [scheduleCalls, ih]

theorem round_keeps_pending (s : System Nat)
    (hq : s.q.queue = [⟨10, 2, false, some 7⟩]) :
    ((s.step (Op.schedule 0 none)).step (Op.dispatch 5)).q.queue
      = [⟨10, 2, false, some 7⟩] := by
  have hpush : ∀ id : Nat, push [(⟨10, 2, false, some 7⟩ : QueueElement Nat)] ⟨0, id, false, none⟩
      = [⟨0, id, false, none⟩, ⟨10, 2, false, some 7⟩] := by
    intro id
    simp [push, push_heap, siftUp, swapAt, QueueElement.lt]
  have hloop : ∀ id : Nat, TimeQueue.callHandlersLoop 5 2
      [(⟨0, id, false, none⟩ : QueueElement Nat), ⟨10, 2, false, some 7⟩]
      = ([⟨10, 2, false, some 7⟩], [⟨0, id, false, none⟩]) := by
    intro id
    simp [TimeQueue.callHandlersLoop, top, pop, siftDown]
  simp only [System.step, TimeQueue.Schedule, TimeQueue.AddElement, TimeQueue.CallHandlers, hq,
    hpush, hloop, List.length_cons, List.length_nil]

theorem rounds_keep_pending (n : Nat) (s : System Nat)
    (hq : s.q.queue = [⟨10, 2, false, some 7⟩]) :
    (s.run (rounds n)).q.queue = [⟨10, 2, false, some 7⟩] := by
  induction n generalizing s with
  | zero => simpa [rounds, run_nil] using hq
  | succ n ih =>
    rw [rounds_succ, run_cons, run_cons]
    exact ih _ (round_keeps_pending s hq)

theorem wrapOps_queue : (System.init.run wrapOps).q.queue = [⟨10, 2, false, some 7⟩] := by
  unfold wrapOps
  rw [run_cons]
  apply rounds_keep_pending
  decide

theorem scheduleCalls_cons_schedule {H : Type} (tp : Int) (h : Option H) (rest : List (Op H)) :
    scheduleCalls (Op.schedule tp h :: rest) = scheduleCalls rest + 1 := rfl

theorem scheduleCalls_wrapOps : scheduleCalls wrapOps = 2 ^ 64 := by
  unfold wrapOps
  rw [scheduleCalls_cons_schedule, scheduleCalls_rounds]
  norm_num

end Wrap

/-! ## Every handler is held once and called once -/

section HandlerLemmas

variable {H : Type} [DecidableEq H]

theorem holders_nil (h : H) : holders h ([] : List (QueueElement H)) = 0 := rfl

theorem holders_append (h : H) (l₁ l₂ : List (QueueElement H)) :
    holders h (l₁ ++ l₂) = holders h l₁ + holders h l₂ := by
  unfold holders; exact List.countP_append _ _ _

theorem holders_cons (h : H) (x : QueueElement H) (l : List (QueueElement H)) :
    holders h (x :: l) = holders h l + (if x.handler = some h then 1 else 0) := by
  unfold holders
  rw [List.countP_cons]
  simp

theorem holders_perm (h : H) {l₁ l₂ : List (QueueElement H)} (hp : l₁.Perm l₂) :
    holders h l₁ = holders h l₂ := by
  unfold holders; exact hp.countP_eq _

theorem holders_push (h : H) (vec : List (QueueElement H)) (x : QueueElement H) :
    holders h (push vec x) = holders h vec + (if x.handler = some h then 1 else 0) := by
  rw [holders_perm h (push_perm vec x), holders_cons]

theorem holders_pos_iff (h : H) (vec : List (QueueElement H)) :
    0 < holders h vec ↔ ∃ e ∈ vec, e.handler = some h := by
  unfold holders
  rw [List.countP_pos_iff]
  simp

theorem holders_Cancel (h : H) (q : TimeQueue H) (now : Int) (tid : Nat) :
    holders h (q.Cancel now tid).1.queue = holders h q.queue := by
  cases hc : TimeQueue.cancelLoop now tid q.queue with
  | none => rw [Cancel_of_none q now tid hc]
  | some p =>
    obtain ⟨ce, vec'⟩ := p
    rw [Cancel_of_some q now tid ce vec' hc]
    obtain ⟨pre, x, post, h1, _, _, h4, h5⟩ := cancelLoop_eq_some now tid q.queue ce vec' hc
    simp only [holders_push, h1, h4, h5, holders_append, holders_cons]
    simp only [reduceCtorEq, if_false]
    omega

theorem holders_CallHandlers (h : H) (q : TimeQueue H) (now : Int) :
    holders h (q.CallHandlers now).1.queue + holders h (q.CallHandlers now).2
      = holders h q.queue := by
  rw [holders_perm h (callHandlersLoop_perm now q.queue.length q.queue), holders_append]
  exact Nat.add_comm _ _

theorem timesCalled_invocations (h : H) (es : List (QueueElement H)) :
    timesCalled h (invocations es) = holders h es := by
  induction es with
  | nil => rfl
  | cons e rest ih =>
    rw [holders_cons, ← ih]
    unfold invocations timesCalled
    rw [List.flatMap_cons, List.countP_append]
    cases hh : e.handler with
    | none => simp [QueueElement.Handle, hh]
    | some h' =>
      simp only [QueueElement.Handle, hh, List.countP_cons, List.countP_nil, Option.some.injEq,
        decide_eq_true_eq]
      omega

theorem timesScheduled_append (h : H) (ops₁ ops₂ : List (Op H)) :
    timesScheduled h (ops₁ ++ ops₂) = timesScheduled h ops₁ + timesScheduled h ops₂ := by
  induction ops₁ with
  | nil => simp [timesScheduled]
  | cons op rest ih =>
    cases op <;> simp [timesScheduled, ih] <;> omega

/-- One call keeps the balance: holders in the queue plus holders already
handled grow by one exactly when the call is a `Schedule` passing `h`. -/
theorem step_holders (h : H) (s : System H) (op : Op H) :
    holders h (s.step op).q.queue + holders h (handledElements (s.step op).log)
      = holders h s.q.queue + holders h (handledElements s.log) + timesScheduled h [op] := by
  rw [step_handledElements, holders_append]
  cases op with
  | schedule tp h' =>
    simp only [System.step, Schedule_queue, holders_push, timesScheduled, holders_nil]
    omega
  | scheduleAfter now d h' =>
    simp only [System.step, TimeQueue.ScheduleAfter, Schedule_queue, holders_push, timesScheduled,
      holders_nil]
    omega
  | cancel now tid =>
    simp only [System.step, holders_Cancel, timesScheduled, holders_nil]
    omega
  | dispatch now =>
    simp only [System.step, timesScheduled]
    have := holders_CallHandlers h s.q now
    omega

theorem run_holders (h : H) (s : System H) (ops : List (Op H)) :
    holders h (s.run ops).q.queue + holders h (handledElements (s.run ops).log)
      = holders h s.q.queue + holders h (handledElements s.log) + timesScheduled h ops := by
  induction ops generalizing s with
  | nil => simp [run_nil, timesScheduled]
  | cons op rest ih =>
    rw [run_cons, ih, step_holders]
    have : timesScheduled h (op :: rest) = timesScheduled h [op] + timesScheduled h rest :=
      timesScheduled_append h [op] rest
    omega

/-- From a fresh queue: the elements holding `h`, in the queue or already
handled, are as many as the `Schedule` calls that passed `h`. -/
theorem init_run_holders (h : H) (ops : List (Op H)) :
    holders h (System.init.run ops).q.queue
        + timesCalled h (invocations (handledElements (System.init.run ops).log))
      = timesScheduled h ops := by
  rw [timesCalled_invocations, run_holders]
  simp [System.init, TimeQueue.init, holders, handledElements]

end HandlerLemmas

/-! ## Where the `aborted` flag of a handled element comes from -/

section Provenance

variable {H : Type} [DecidableEq H]

/-- An element with a handler and `aborted = true`, in the queue or already
handled, is the `canceledElement` of a successful `Cancel` of its id. -/
theorem aborted_from_cancel (ops : List (Op H)) (e : QueueElement H)
    (he : e ∈ (System.init.run ops).q.queue ∨ e ∈ handledElements (System.init.run ops).log)
    (hh : e.handler ≠ none) (ha : e.aborted = true) :
    ∃ now, Event.cancelled now e.tid (some e) ∈ (System.init.run ops).log := by
  induction ops using List.reverseRecOn generalizing e with
  | nil => simp [run_nil, System.init, TimeQueue.init, handledElements] at he
  | append_singleton ops op ih =>
    rw [run_snoc] at he ⊢
    have hold : ∀ x, (x ∈ (System.init.run ops).q.queue
        ∨ x ∈ handledElements (System.init.run ops).log) → x.handler ≠ none →
        x.aborted = true →
        ∃ now, Event.cancelled now x.tid (some x) ∈ ((System.init.run ops).step op).log := by
      intro x hx hxh hxa
      obtain ⟨now, hnow⟩ := ih x hx hxh hxa
      exact ⟨now, step_log_mono _ op _ hnow⟩
    rw [step_handledElements] at he
    cases op with
    | schedule tp h' =>
      simp only [List.append_nil] at he
      rcases he with he | he
      · simp only [System.step, Schedule_queue] at he
        rcases (mem_push _ _ _).mp he with h1 | h1
        · rw [h1] at ha; simp at ha
        · exact hold e (Or.inl h1) hh ha
      · exact hold e (Or.inr he) hh ha
    | scheduleAfter n d h' =>
      simp only [List.append_nil] at he
      rcases he with he | he
      · simp only [System.step, TimeQueue.ScheduleAfter, Schedule_queue] at he
        rcases (mem_push _ _ _).mp he with h1 | h1
        · rw [h1] at ha; simp at ha
        · exact hold e (Or.inl h1) hh ha
      · exact hold e (Or.inr he) hh ha
    | cancel n t =>
      simp only [List.append_nil] at he
      rcases he with he | he
      · simp only [System.step] at he
        rcases mem_Cancel _ n t e he with h1 | ⟨ce, vec', x, hc, _, _, hce, h1 | h1⟩
        · exact hold e (Or.inl h1) hh ha
        · refine ⟨n, ?_⟩
          simp only [System.step]
          apply List.mem_append_right
          rw [hc, h1, hce]
          simp
        · rw [h1] at hh; simp at hh
      · exact hold e (Or.inr he) hh ha
    | dispatch n =>
      rcases he with he | he
      · exact hold e (Or.inl (mem_CallHandlers_queue _ n e he)) hh ha
      · rcases List.mem_append.mp he with h1 | h1
        · exact hold e (Or.inr h1) hh ha
        · exact hold e (Or.inl (mem_CallHandlers_popped _ n e h1)) hh ha

end Provenance

/-! ## A handler passed to one `Schedule` call -/

section Superseded

variable {H : Type} [DecidableEq H]

theorem init_run_holders_eq (h : H) (ops : List (Op H)) :
    holders h (System.init.run ops).q.queue
        + holders h (handledElements (System.init.run ops).log)
      = timesScheduled h ops := by
  rw [run_holders]
  simp [System.init, TimeQueue.init, holders_nil, handledElements]

/-- A handler superseded by a `Cancel` was passed to a `Schedule` call before. -/
theorem superseded_was_scheduled (h : H) (ops : List (Op H))
    (hs : supersededBy h (System.init.run ops).log) : 1 ≤ timesScheduled h ops := by
  induction ops using List.reverseRecOn with
  | nil =>
    obtain ⟨now, tid, ce, hmem, _⟩ := hs
    simp [run_nil, System.init] at hmem
  | append_singleton ops op ih =>
    rw [run_snoc] at hs
    rw [timesScheduled_append]
    rcases supersededBy_step h _ op hs with h1 | ⟨now, tid, ce, vec', _, hc, hce⟩
    · have := ih h1; omega
    · obtain ⟨pre, x, post, h1, _, _, h4, _⟩ := cancelLoop_eq_some now tid _ ce vec' hc
      have hx : x.handler = some h := by rw [h4] at hce; exact hce
      have hpos : 0 < holders h (System.init.run ops).q.queue :=
        (holders_pos_iff h _).mpr ⟨x, by rw [h1]; simp, hx⟩
      have := init_run_holders_eq h ops
      omega

/-- When at most one element holds `h` and `Cancel` supersedes it, the only
holder afterwards is the `canceledElement`. -/
theorem holder_after_cancel (h : H) (vec vec' : List (QueueElement H)) (now : Int) (tid : Nat)
    (ce : QueueElement H) (hc : TimeQueue.cancelLoop now tid vec = some (ce, vec'))
    (hce : ce.handler = some h) (hone : holders h vec ≤ 1) :
    ∀ e ∈ push vec' ce, e.handler = some h → e = ce := by
  obtain ⟨pre, x, post, h1, _, _, h4, h5⟩ := cancelLoop_eq_some now tid vec ce vec' hc
  have hx : x.handler = some h := by rw [h4] at hce; exact hce
  rw [h1, holders_append, holders_cons, if_pos hx] at hone
  have hpre : ¬ 0 < holders h pre := by omega
  have hpost : ¬ 0 < holders h post := by omega
  rw [holders_pos_iff] at hpre hpost
  intro e he heh
  rcases (mem_push _ _ _).mp he with h6 | h6
  · exact h6
  · rw [h5] at h6
    rcases List.mem_append.mp h6 with h7 | h7
    · exact absurd ⟨e, h7, heh⟩ hpre
    · rcases List.mem_cons.mp h7 with h8 | h8
      · rw [h8] at heh; simp at heh
      · exact absurd ⟨e, h8, heh⟩ hpost

/-- When `Cancel` supersedes an element that does not hold `h`, the holders of
`h` afterwards were in the queue before. -/
theorem holder_after_other_cancel (h : H) (vec vec' : List (QueueElement H)) (now : Int)
    (tid : Nat) (ce : QueueElement H)
    (hc : TimeQueue.cancelLoop now tid vec = some (ce, vec')) (hce : ce.handler ≠ some h) :
    ∀ e ∈ push vec' ce, e.handler = some h → e ∈ vec := by
  obtain ⟨pre, x, post, h1, _, _, _, h5⟩ := cancelLoop_eq_some now tid vec ce vec' hc
  intro e he heh
  rcases (mem_push _ _ _).mp he with h6 | h6
  · rw [h6] at heh; exact absurd heh hce
  · rw [h5] at h6
    rw [h1]
    rcases List.mem_append.mp h6 with h7 | h7
    · exact List.mem_append_left _ h7
    · rcases List.mem_cons.mp h7 with h8 | h8
      · rw [h8] at heh; simp at heh
      · exact List.mem_append_right _ (List.mem_cons_of_mem _ h8)

/-- For a handler passed to at most one `Schedule` call: once a `Cancel` has
superseded the element holding it, every element holding it, in the queue or
already handled, has `aborted = true`. -/
theorem superseded_holder_aborted (h : H) (ops : List (Op H))
    (hone : timesScheduled h ops ≤ 1) (hs : supersededBy h (System.init.run ops).log) :
    ∀ e, (e ∈ (System.init.run ops).q.queue
        ∨ e ∈ handledElements (System.init.run ops).log) →
      e.handler = some h → e.aborted = true := by
  induction ops using List.reverseRecOn with
  | nil =>
    obtain ⟨now, tid, ce, hmem, _⟩ := hs
    simp [run_nil, System.init] at hmem
  | append_singleton ops op ih =>
    rw [timesScheduled_append] at hone
    have hbal := init_run_holders_eq h ops
    intro e he heh
    rw [run_snoc] at hs he
    rw [step_handledElements] at he
    rcases supersededBy_step h _ op hs with h1 | ⟨now, tid, ce, vec', hop, hc, hce⟩
    · have ih' := ih (by omega) h1
      have hsched := superseded_was_scheduled h ops h1
      cases op with
      | schedule tp h' =>
        simp only [List.append_nil, System.step, Schedule_queue] at he
        rcases he with he | he
        · rcases (mem_push _ _ _).mp he with h2 | h2
          · rw [h2] at heh
            simp only at heh
            simp only [timesScheduled, heh, if_true] at hone
            omega
          · exact ih' e (Or.inl h2) heh
        · exact ih' e (Or.inr he) heh
      | scheduleAfter n d h' =>
        simp only [List.append_nil, System.step, TimeQueue.ScheduleAfter, Schedule_queue] at he
        rcases he with he | he
        · rcases (mem_push _ _ _).mp he with h2 | h2
          · rw [h2] at heh
            simp only at heh
            simp only [timesScheduled, heh, if_true] at hone
            omega
          · exact ih' e (Or.inl h2) heh
        · exact ih' e (Or.inr he) heh
      | cancel n t =>
        simp only [List.append_nil, System.step] at he
        rcases he with he | he
        · cases hc : TimeQueue.cancelLoop n t (System.init.run ops).q.queue with
          | none =>
            rw [Cancel_of_none _ n t hc] at he
            exact ih' e (Or.inl he) heh
          | some p =>
            obtain ⟨ce, vec'⟩ := p
            rw [Cancel_of_some _ n t ce vec' hc] at he
            simp only at he
            by_cases hce : ce.handler = some h
            · have := holder_after_cancel h _ vec' n t ce hc hce (by omega) e he heh
              rw [this]
              obtain ⟨_, x, _, _, _, _, h4, _⟩ := cancelLoop_eq_some n t _ ce vec' hc
              rw [h4]
            · exact ih' e (Or.inl (holder_after_other_cancel h _ vec' n t ce hc hce e he heh)) heh
        · exact ih' e (Or.inr he) heh
      | dispatch n =>
        rcases he with he | he
        · exact ih' e (Or.inl (mem_CallHandlers_queue _ n e he)) heh
        · rcases List.mem_append.mp he with h2 | h2
          · exact ih' e (Or.inr h2) heh
          · exact ih' e (Or.inl (mem_CallHandlers_popped _ n e h2)) heh
    · subst hop
      simp only [List.append_nil, System.step] at he
      have hcea : ce.aborted = true := by
        obtain ⟨_, x, _, _, _, _, h4, _⟩ := cancelLoop_eq_some now tid _ ce vec' hc
        rw [h4]
      obtain ⟨pre, x, post, hx1, _, _, hx4, _⟩ := cancelLoop_eq_some now tid _ ce vec' hc
      have hx : x.handler = some h := by rw [hx4] at hce; exact hce
      have hpos : 0 < holders h (System.init.run ops).q.queue :=
        (holders_pos_iff h _).mpr ⟨x, by rw [hx1]; simp, hx⟩
      rcases he with he | he
      · rw [Cancel_of_some _ now tid ce vec' hc] at he
        simp only at he
        have := holder_after_cancel h _ vec' now tid ce hc hce (by omega) e he heh
        rw [this]; exact hcea
      · exfalso
        have : 0 < holders h (handledElements (System.init.run ops).log) :=
          (holders_pos_iff h _).mpr ⟨e, he, heh⟩
        omega

end Superseded

/-! ## The calls made for a list of handled elements -/

section Calls

variable {H : Type}

/-- Handling elements calls the handlers of those that have one, in the order
of the elements, each with the `aborted` flag of its element. -/
theorem invocations_eq_filterMap (es : List (QueueElement H)) :
    invocations es = es.filterMap (fun e => e.handler.map (fun h => (h, e.aborted))) := by
  induction es with
  | nil => rfl
  | cons e rest ih =>
    unfold invocations at ih ⊢
    rw [List.flatMap_cons, ih]
    cases hh : e.handler with
    | none => simp [QueueElement.Handle, hh, List.filterMap_cons]
    | some h => simp [QueueElement.Handle, hh, List.filterMap_cons]

theorem mem_invocations_iff (es : List (QueueElement H)) (h : H) (a : Bool) :
    (h, a) ∈ invocations es ↔ ∃ e ∈ es, e.handler = some h ∧ e.aborted = a := by
  rw [invocations_eq_filterMap, List.mem_filterMap]
  constructor
  · rintro ⟨e, he, hmap⟩
    cases hh : e.handler with
    | none => rw [hh] at hmap; simp at hmap
    | some h' =>
      rw [hh] at hmap
      simp only [Option.map_some', Option.some.injEq, Prod.mk.injEq] at hmap
      exact ⟨e, he, by rw [← hmap.1]; exact hh, hmap.2⟩
  · rintro ⟨e, he, hh, ha⟩
    exact ⟨e, he, by rw [hh, ha]; rfl⟩

end Calls

/-! ## Cancel without a match, deadlines under Cancel, and the value 0 -/

section CancelMore

variable {H : Type}

theorem Cancel_no_match (q : TimeQueue H) (now : Int) (tid : Nat)
    (hno : ∀ e ∈ q.queue, e.tid ≠ tid) : q.Cancel now tid = (q, false) :=
  Cancel_of_none q now tid ((cancelLoop_eq_none_iff now tid q.queue).mpr hno)

theorem step_cancel_no_match (s : System H) (now : Int) (tid : Nat)
    (hno : ∀ e ∈ s.q.queue, e.tid ≠ tid) :
    s.step (Op.cancel now tid) = ⟨s.q, s.log ++ [Event.cancelled now tid none]⟩ := by
  simp only [System.step, Cancel_no_match s.q now tid hno,
    (cancelLoop_eq_none_iff now tid s.q.queue).mpr hno, Option.map_none']

/-- The in-place write of `Cancel` leaves the deadline at every position. -/
theorem cancelLoop_deadlines (now : Int) (tid : Nat) (vec vec' : List (QueueElement H))
    (ce : QueueElement H) (hc : TimeQueue.cancelLoop now tid vec = some (ce, vec')) :
    vec'.map (fun e => e.tp) = vec.map (fun e => e.tp) := by
  obtain ⟨pre, e, post, h1, _, _, _, h5⟩ := cancelLoop_eq_some now tid vec ce vec' hc
  rw [h1, h5]
  simp

/-- Before the counter wraps, the elements with `tid = 0` are the ones `Cancel`
wrote: `aborted = true` and no handler. -/
theorem init_run_tid_zero [DecidableEq H] (ops : List (Op H))
    (hb : scheduleCalls ops ≤ 2 ^ 64 - 2) :
    ∀ e ∈ ((System.init : System H).run ops).q.queue, e.tid = 0 →
      e.aborted = true ∧ e.handler = none := by
  induction ops using List.reverseRecOn with
  | nil => intro e he; simp [run_nil, System.init, TimeQueue.init] at he
  | append_singleton ops op ih =>
    rw [scheduleCalls_append] at hb
    have ih' := ih (by omega)
    have hc := init_run_currentTID ops
    rw [run_snoc]
    have hsched : scheduleCalls [op] = 1 → ∀ (tp : Int) (h : Option H),
        ∀ e ∈ ((System.init.run ops).q.Schedule tp h).1.queue, e.tid = 0 →
          e.aborted = true ∧ e.handler = none := by
      intro h1 tp h e he h0
      rw [Schedule_queue] at he
      rcases (mem_push _ _ _).mp he with h2 | h2
      · exfalso
        rw [h2, hc] at h0
        simp only at h0
        unfold TimerIDSize at h0
        omega
      · exact ih' e h2 h0
    cases op with
    | schedule tp h => exact hsched rfl tp h
    | scheduleAfter now d h => exact hsched rfl (now + d) h
    | cancel now tid =>
      intro e he h0
      rcases mem_Cancel _ now tid e he with h1 | ⟨ce, vec', x, _, hx, hxt, hce, h1 | h1⟩
      · exact ih' e h1 h0
      · rw [h1, hce] at h0 ⊢
        exact ⟨rfl, (ih' x hx (by rw [hxt]; exact h0)).2⟩
      · rw [h1]; exact ⟨rfl, rfl⟩
    | dispatch now =>
      intro e he h0
      exact ih' e (mem_CallHandlers_queue _ now e he) h0

/-- A pass pops every element of a heap-ordered queue that is before `now`. -/
theorem mem_popped_of_lt [DecidableEq H] (q : TimeQueue H) (now : Int) (h : IsHeap q.queue)
    (e : QueueElement H) (he : e ∈ q.queue) (hlt : e.tp < now) :
    e ∈ (q.CallHandlers now).2 := by
  obtain ⟨hperm, _, hge, _, _⟩ := CallHandlers_spec q now h
  rcases List.mem_append.mp (hperm.mem_iff.mp he) with h1 | h1
  · exact h1
  · have := hge e h1; omega

theorem mem_invocations {H : Type} (es : List (QueueElement H)) (e : QueueElement H) (h : H)
    (he : e ∈ es) (hh : e.handler = some h) : (h, e.aborted) ∈ invocations es := by
  unfold invocations
  rw [List.mem_flatMap]
  exact ⟨e, he, by simp [QueueElement.Handle, hh]⟩

/-- The pass on a queue whose front element is due is the pass on the popped
queue, with the front element put before the elements popped there. -/
theorem CallHandlers_front (q : TimeQueue H) (now : Int) (e : QueueElement H)
    (htop : top q.queue = some e) (hdue : e.tp < now) :
    (q.CallHandlers now).1 = ((⟨pop q.queue, q.currentTID⟩ : TimeQueue H).CallHandlers now).1 ∧
    (q.CallHandlers now).2
      = e :: ((⟨pop q.queue, q.currentTID⟩ : TimeQueue H).CallHandlers now).2 := by
  obtain ⟨rest, hrest⟩ := (top_eq_some_iff _ e).mp htop
  have hlen : q.queue.length = (pop q.queue).length + 1 := by
    rw [pop_length, hrest]; simp
  have key : TimeQueue.callHandlersLoop now ((pop q.queue).length + 1) q.queue
      = ((TimeQueue.callHandlersLoop now (pop q.queue).length (pop q.queue)).1,
          e :: (TimeQueue.callHandlersLoop now (pop q.queue).length (pop q.queue)).2) := by
    simp only [TimeQueue.callHandlersLoop, htop, hdue, if_true]
  unfold TimeQueue.CallHandlers
  simp only
  rw [hlen, key]
  exact ⟨rfl, rfl⟩

end CancelMore

/-! ## Ids carried by the elements -/

section CarriedIdsBasic

variable {H : Type}

theorem carriedIds_append (l₁ l₂ : List (QueueElement H)) :
    carriedIds (l₁ ++ l₂) = carriedIds l₁ ++ carriedIds l₂ := by
  simp [carriedIds]

theorem carriedIds_perm {l₁ l₂ : List (QueueElement H)} (h : l₁.Perm l₂) :
    (carriedIds l₁).Perm (carriedIds l₂) :=
  (h.map _).filter _

theorem mem_carriedIds (vec : List (QueueElement H)) (t : Nat) :
    t ∈ carriedIds vec ↔ t ≠ 0 ∧ ∃ e ∈ vec, e.tid = t := by
  simp only [carriedIds, List.mem_filter, List.mem_map, decide_eq_true_eq]
  exact ⟨fun h => ⟨h.2, h.1⟩, fun h => ⟨h.2, h.1⟩⟩

theorem carriedIds_cons (x : QueueElement H) (l : List (QueueElement H)) :
    carriedIds (x :: l) = (if x.tid ≠ 0 then [x.tid] else []) ++ carriedIds l := by
  by_cases h : x.tid = 0 <;> simp [carriedIds, List.filter_cons, h]

end CarriedIdsBasic

section CarriedIds

variable {H : Type} [DecidableEq H]

/-- Every id other than 0 carried by an element of the queue was returned by a
`Schedule` call. -/
theorem init_run_tid_issued (ops : List (Op H)) :
    ∀ e ∈ ((System.init : System H).run ops).q.queue, e.tid ≠ 0 →
      e.tid ∈ scheduledIds (System.init.run ops).log := by
  induction ops using List.reverseRecOn with
  | nil => intro e he; simp [run_nil, System.init, TimeQueue.init] at he
  | append_singleton ops op ih =>
    rw [run_snoc]
    cases op with
    | schedule tp h =>
      intro e he h0
      simp only [System.step, Schedule_queue, Schedule_snd, scheduledIds_append] at he ⊢
      rcases (mem_push _ _ _).mp he with h1 | h1
      · rw [h1]; simp [scheduledIds]
      · exact List.mem_append_left _ (ih e h1 h0)
    | scheduleAfter now d h =>
      intro e he h0
      simp only [System.step, TimeQueue.ScheduleAfter, Schedule_queue, Schedule_snd,
        scheduledIds_append] at he ⊢
      rcases (mem_push _ _ _).mp he with h1 | h1
      · rw [h1]; simp [scheduledIds]
      · exact List.mem_append_left _ (ih e h1 h0)
    | cancel now tid =>
      intro e he h0
      simp only [System.step, scheduledIds_append] at he ⊢
      apply List.mem_append_left
      rcases mem_Cancel _ now tid e he with h1 | ⟨ce, vec', x, _, hx, hxt, hce, h1 | h1⟩
      · exact ih e h1 h0
      · rw [h1, hce] at h0 ⊢
        have := ih x hx (by rw [hxt]; exact h0)
        rw [hxt] at this
        exact this
      · rw [h1] at h0; exact absurd rfl h0
    | dispatch now =>
      intro e he h0
      simp only [System.step, scheduledIds_append] at he ⊢
      exact List.mem_append_left _ (ih e (mem_CallHandlers_queue _ now e he) h0)

/-- Before the counter wraps, no handled element carries an id above the counter. -/
theorem init_run_handled_tid_le (ops : List (Op H)) (hb : scheduleCalls ops ≤ 2 ^ 64 - 2) :
    ∀ e ∈ handledElements ((System.init : System H).run ops).log,
      e.tid ≤ 1 + scheduleCalls ops := by
  induction ops using List.reverseRecOn with
  | nil => intro e he; simp [run_nil, System.init, handledElements] at he
  | append_singleton ops op ih =>
    rw [scheduleCalls_append] at hb ⊢
    have ih' := ih (by omega)
    have hq := init_run_tid_le ops (by omega)
    rw [run_snoc, step_handledElements]
    intro e he
    rcases List.mem_append.mp he with h1 | h1
    · have := ih' e h1; omega
    · cases op with
      | schedule tp h => simp at h1
      | scheduleAfter now d h => simp at h1
      | cancel now tid => simp at h1
      | dispatch now =>
        have := hq e (mem_CallHandlers_popped _ now e h1)
        omega

/-- Before the counter wraps, an id other than 0 is carried by at most one
element, in the queue or already handled. -/
theorem init_run_carriedIds_nodup (ops : List (Op H)) (hb : scheduleCalls ops ≤ 2 ^ 64 - 2) :
    (carriedIds (((System.init : System H).run ops).q.queue
      ++ handledElements (System.init.run ops).log)).Nodup := by
  induction ops using List.reverseRecOn with
  | nil => simp [run_nil, System.init, TimeQueue.init, handledElements, carriedIds]
  | append_singleton ops op ih =>
    rw [scheduleCalls_append] at hb
    have ih' := ih (by omega)
    have hq := init_run_tid_le ops (by omega)
    have hh := init_run_handled_tid_le ops (by omega)
    have hc := init_run_currentTID ops
    rw [run_snoc, step_handledElements]
    have hsched : scheduleCalls [op] = 1 → ∀ (tp : Int) (h : Option H),
        (carriedIds (((System.init.run ops).q.Schedule tp h).1.queue
          ++ (handledElements (System.init.run ops).log ++ []))).Nodup := by
      intro h1 tp h
      rw [List.append_nil, Schedule_queue]
      have hid : ((System.init.run ops).q.currentTID + 1) % TimerIDSize
          = scheduleCalls ops + 2 := by
        rw [hc]; unfold TimerIDSize; omega
      rw [hid]
      refine (carriedIds_perm (List.Perm.append_right _ (push_perm _ _))).nodup_iff.mpr ?_
      rw [List.cons_append, carriedIds_cons]
      simp only [ne_eq, Nat.add_eq_zero, OfNat.ofNat_ne_zero, and_false, not_false_eq_true,
        if_true, List.singleton_append]
      refine List.nodup_cons.mpr ⟨?_, ih'⟩
      intro hmem
      obtain ⟨_, e, he, het⟩ := (mem_carriedIds _ _).mp hmem
      rcases List.mem_append.mp he with h2 | h2
      · have := hq e h2; omega
      · have := hh e h2; omega
    cases op with
    | schedule tp h => exact hsched rfl tp h
    | scheduleAfter now d h => exact hsched rfl (now + d) h
    | cancel now tid =>
      simp only [System.step, List.append_nil]
      cases hcl : TimeQueue.cancelLoop now tid (System.init.run ops).q.queue with
      | none => rw [Cancel_of_none _ now tid hcl]; exact ih'
      | some p =>
        obtain ⟨ce, vec'⟩ := p
        obtain ⟨pre, x, post, h1, _, h3, h4, h5⟩ := cancelLoop_eq_some now tid _ ce vec' hcl
        rw [Cancel_of_some _ now tid ce vec' hcl]
        simp only
        refine (carriedIds_perm (List.Perm.append_right _ (push_perm _ _))).nodup_iff.mpr ?_
        rw [h1] at ih'
        rw [h4, h5]
        have hperm : (carriedIds ((⟨now, tid, true, x.handler⟩ : QueueElement H)
            :: (pre ++ ⟨x.tp, 0, true, none⟩ :: post)
              ++ handledElements (System.init.run ops).log)).Perm
            (carriedIds (pre ++ x :: post ++ handledElements (System.init.run ops).log)) := by
          simp only [List.cons_append, carriedIds_cons, carriedIds_append, h3, ne_eq,
            not_true_eq_false, if_false, List.nil_append, List.append_assoc]
          rw [← List.append_assoc, ← List.append_assoc (carriedIds pre)]
          exact List.Perm.append_right _ List.perm_append_comm
        exact hperm.nodup_iff.mpr ih'
    | dispatch now =>
      simp only [System.step]
      refine (carriedIds_perm ?_).nodup_iff.mpr ih'
      have hp := callHandlersLoop_perm now (System.init.run ops).q.queue.length
        (System.init.run ops).q.queue
      have hp2 : ((System.init.run ops).q.queue
          ++ handledElements (System.init.run ops).log).Perm
          (((System.init.run ops).q.CallHandlers now).2
            ++ ((System.init.run ops).q.CallHandlers now).1.queue
            ++ handledElements (System.init.run ops).log) :=
        List.Perm.append_right _ hp
      refine List.Perm.trans ?_ hp2.symm
      rw [List.append_assoc, ← List.append_assoc]
      exact List.perm_append_comm

/-- `Cancel` of an id other than 0 that no `Schedule` call has returned finds no
match. -/
theorem cancel_unissued_id_no_match (ops : List (Op H)) (tid : Nat) (h0 : tid ≠ 0)
    (hnew : tid ∉ scheduledIds ((System.init : System H).run ops).log) :
    ∀ e ∈ (System.init.run ops).q.queue, e.tid ≠ tid := by
  intro e he het
  exact hnew (het ▸ init_run_tid_issued ops e he (het ▸ h0))

/-- Before the counter wraps, `Cancel` of the id of an element that the worker
has already popped and handled finds no match. -/
theorem cancel_handled_id_no_match (ops : List (Op H)) (hb : scheduleCalls ops ≤ 2 ^ 64 - 2)
    (x : QueueElement H) (hx : x ∈ handledElements ((System.init : System H).run ops).log)
    (h0 : x.tid ≠ 0) : ∀ e ∈ (System.init.run ops).q.queue, e.tid ≠ x.tid := by
  intro e he het
  have hnd := init_run_carriedIds_nodup ops hb
  rw [carriedIds_append] at hnd
  have hdis := (List.nodup_append.mp hnd).2.2
  exact hdis ((mem_carriedIds _ _).mpr ⟨h0, e, he, het⟩)
    ((mem_carriedIds _ _).mpr ⟨h0, x, hx, rfl⟩)

end CarriedIds

/-! ## The timed wait, the worker loop and the destructor -/

section Worker

variable {H : Type}

theorem Cancel_length (q : TimeQueue H) (now : Int) (tid : Nat) :
    (q.Cancel now tid).1.queue.length
      = q.queue.length + (if (q.Cancel now tid).2 = true then 1 else 0) := by
  cases hc : TimeQueue.cancelLoop now tid q.queue with
  | none => rw [Cancel_of_none q now tid hc]; simp
  | some p =>
    obtain ⟨ce, vec'⟩ := p
    obtain ⟨pre, e, post, h1, _, _, _, h5⟩ := cancelLoop_eq_some now tid q.queue ce vec' hc
    rw [Cancel_of_some q now tid ce vec' hc]
    simp only [push_length, if_true, h1, h5]
    simp

/-- A call of `Schedule` or `Cancel` never shrinks the queue, and leaves the
queue object as it is when the size stays the same. -/
theorem step_caller_length (s : System H) (op : Op H) (hop : ∀ n, op ≠ Op.dispatch n) :
    s.q.queue.length ≤ (s.step op).q.queue.length ∧
    ((s.step op).q.queue.length = s.q.queue.length → (s.step op).q = s.q) := by
  cases op with
  | schedule tp h =>
    simp only [System.step, Schedule_queue, push_length]
    exact ⟨by omega, fun h => by omega⟩
  | scheduleAfter now d h =>
    simp only [System.step, TimeQueue.ScheduleAfter, Schedule_queue, push_length]
    exact ⟨by omega, fun h => by omega⟩
  | cancel now tid =>
    simp only [System.step]
    have hl := Cancel_length s.q now tid
    cases hr : (s.q.Cancel now tid).2 with
    | true => rw [hr] at hl; simp only [if_true] at hl; exact ⟨by omega, fun h => by omega⟩
    | false =>
      refine ⟨by rw [hl, hr]; simp, fun _ => ?_⟩
      rw [Cancel_snd] at hr
      cases hc : TimeQueue.cancelLoop now tid s.q.queue with
      | none => rw [Cancel_of_none s.q now tid hc]
      | some p => rw [hc] at hr; simp at hr
  | dispatch n => exact absurd rfl (hop n)

theorem run_caller_length (s : System H) (calls : List (Op H))
    (hcalls : ∀ op ∈ calls, ∀ n, op ≠ Op.dispatch n) :
    s.q.queue.length ≤ (s.run calls).q.queue.length ∧
    ((s.run calls).q.queue.length = s.q.queue.length → (s.run calls).q = s.q) := by
  induction calls generalizing s with
  | nil => exact ⟨le_refl _, fun _ => rfl⟩
  | cons op rest ih =>
    rw [run_cons]
    have h1 := step_caller_length s op (hcalls op (List.mem_cons_self _ _))
    have h2 := ih (s.step op) (fun o ho => hcalls o (List.mem_cons_of_mem _ ho))
    refine ⟨by omega, fun heq => ?_⟩
    have h3 : (s.step op).q.queue.length = s.q.queue.length := by omega
    rw [h2.2 (by omega), h1.2 h3]

theorem waitPredicate_iff (q : TimeQueue H) (lastSize : Nat) (now : Int) (e : QueueElement H)
    (htop : top q.queue = some e) :
    q.waitPredicate lastSize now = true ↔ e.tp ≤ now ∨ lastSize ≠ q.queue.length := by
  unfold TimeQueue.waitPredicate
  rw [htop]
  simp

theorem waitPredicate_of_size (q : TimeQueue H) (lastSize : Nat) (now : Int)
    (h : lastSize ≠ q.queue.length) : q.waitPredicate lastSize now = true := by
  unfold TimeQueue.waitPredicate
  cases top q.queue with
  | none => simp [h]
  | some e => simp [h]

theorem clearAllLoop_nil (fuel : Nat) (vec : List (QueueElement H)) (hfuel : vec.length ≤ fuel) :
    TimeQueue.clearAllLoop fuel vec = [] := by
  induction fuel generalizing vec with
  | zero => exact List.length_eq_zero.mp (by simpa [TimeQueue.clearAllLoop] using hfuel)
  | succ n ih =>
    unfold TimeQueue.clearAllLoop
    cases ht : top vec with
    | none => exact (top_eq_none_iff vec).mp ht
    | some e => exact ih (pop vec) (by rw [pop_length]; omega)

/-- Worker passes with no other call in between: besides `run_dispatches`, every
element popped has a deadline at most that of every element left. -/
theorem run_dispatches_le [DecidableEq H] (nows : List Int) (s : System H)
    (h : IsHeap s.q.queue) :
    ∃ newly : List (QueueElement H),
      handledElements (s.run (nows.map Op.dispatch)).log = handledElements s.log ++ newly ∧
      newly.Pairwise (fun a b => a.tp ≤ b.tp) ∧
      s.q.queue.Perm (newly ++ (s.run (nows.map Op.dispatch)).q.queue) ∧
      IsHeap (s.run (nows.map Op.dispatch)).q.queue ∧
      ∀ a ∈ newly, ∀ b ∈ (s.run (nows.map Op.dispatch)).q.queue, a.tp ≤ b.tp := by
  induction nows generalizing s with
  | nil =>
    exact ⟨[], by simp [run_nil], List.Pairwise.nil, by simp [run_nil], h,
      fun a ha => by simp at ha⟩
  | cons now rest ih =>
    obtain ⟨hperm, hlt, hge, hsorted, hheap⟩ := CallHandlers_spec s.q now h
    obtain ⟨newly, h1, h2, h3, h4, h5⟩ := ih (s.step (Op.dispatch now)) hheap
    rw [List.map_cons, run_cons]
    have hsub : ∀ b, b ∈ newly ∨ b ∈ ((s.step (Op.dispatch now)).run
        (rest.map Op.dispatch)).q.queue → now ≤ b.tp := by
      intro b hb
      apply hge b
      apply h3.mem_iff.mpr
      exact List.mem_append.mpr hb
    refine ⟨(s.q.CallHandlers now).2 ++ newly, ?_, ?_, ?_, h4, ?_⟩
    · rw [h1, step_handledElements, List.append_assoc]
    · rw [List.pairwise_append]
      refine ⟨hsorted, h2, ?_⟩
      intro a ha b hb
      have := hlt a ha
      have := hsub b (Or.inl hb)
      omega
    · rw [List.append_assoc]
      exact hperm.trans (List.Perm.append_left _ h3)
    · intro a ha b hb
      rcases List.mem_append.mp ha with ha1 | ha1
      · have := hlt a ha1
        have := hsub b (Or.inr hb)
        omega
      · exact h5 a ha1 b hb

end Worker

/-! ## The stop flag -/

section StopFlag

variable {H : Type} [DecidableEq H]

theorem stopWorkerThread_iff (stop : H) (log : List (Event H)) :
    stopWorkerThread stop log = true ↔ ∃ e ∈ handledElements log, e.handler = some stop := by
  unfold stopWorkerThread
  rw [List.any_eq_true]
  constructor
  · rintro ⟨c, hc, hcs⟩
    obtain ⟨e, he, hh, _⟩ := (mem_invocations_iff _ c.1 c.2).mp hc
    exact ⟨e, he, by rw [hh]; simpa using hcs⟩
  · rintro ⟨e, he, hh⟩
    exact ⟨(stop, e.aborted), mem_invocations _ e stop he hh, by simp⟩

theorem workerLoop_of_stopped (stop : H) (nows : List Int) (s : System H)
    (h : stopWorkerThread stop s.log = true) : System.workerLoop stop nows s = s := by
  cases nows with
  | nil => rfl
  | cons n rest => simp [System.workerLoop, h]

/-- The worker loop makes the passes of a first part of the readings. -/
theorem workerLoop_eq_run (stop : H) (nows : List Int) (s : System H) :
    ∃ pre suf, nows = pre ++ suf ∧
      System.workerLoop stop nows s = s.run (pre.map Op.dispatch) := by
  induction nows generalizing s with
  | nil => exact ⟨[], [], rfl, rfl⟩
  | cons n rest ih =>
    unfold System.workerLoop
    split_ifs with hflag
    · exact ⟨[], n :: rest, rfl, rfl⟩
    · obtain ⟨pre, suf, h1, h2⟩ := ih (s.step (Op.dispatch n))
      exact ⟨n :: pre, suf, by rw [h1]; rfl, by rw [h2]; rfl⟩

/-- Once the clock has passed the deadline of the element holding `stop`, the
worker loop ends with the flag set. -/
theorem workerLoop_sets_flag (stop : H) (T : Int) (nows : List Int) (s : System H)
    (hheap : IsHeap s.q.queue)
    (hinv : stopWorkerThread stop s.log = true
      ∨ ∃ x ∈ s.q.queue, x.handler = some stop ∧ x.tp ≤ T)
    (hclock : ∃ n ∈ nows, T < n) :
    stopWorkerThread stop (System.workerLoop stop nows s).log = true := by
  induction nows generalizing s with
  | nil => obtain ⟨n, hn, _⟩ := hclock; simp at hn
  | cons n rest ih =>
    unfold System.workerLoop
    split_ifs with hflag
    · exact hflag
    · rcases hinv with hinv | ⟨x, hx, hxs, hxt⟩
      · exact absurd hinv hflag
      · obtain ⟨hperm, _, hge, _, hheap'⟩ := CallHandlers_spec s.q n hheap
        rcases List.mem_append.mp (hperm.mem_iff.mp hx) with h1 | h1
        · have hset : stopWorkerThread stop (s.step (Op.dispatch n)).log = true := by
            rw [stopWorkerThread_iff, step_handledElements]
            exact ⟨x, List.mem_append_right _ h1, hxs⟩
          rw [workerLoop_of_stopped stop rest _ hset]
          exact hset
        · have hn : n ≤ x.tp := hge x h1
          apply ih (s.step (Op.dispatch n)) hheap' (Or.inr ⟨x, h1, hxs, hxt⟩)
          obtain ⟨m, hm, hTm⟩ := hclock
          rcases List.mem_cons.mp hm with h2 | h2
          · rw [h2] at hTm; omega
          · exact ⟨m, h2, hTm⟩

/-- When the flag is set after the destructor's `Schedule` and some worker
passes, the handled elements are: the ones handled before, then every element
of the queue with a deadline before that of the stop timer, then the stop
timer; whatever is handled later or left in the queue is not before it. -/
theorem stop_timer_order (stop : H) (T : Int) (nows : List Int) (s : System H)
    (hheap : IsHeap s.q.queue) (hq : holders stop s.q.queue = 0)
    (hl : holders stop (handledElements s.log) = 0)
    (hset : stopWorkerThread stop
      (System.workerLoop stop nows (s.step (Op.schedule T (some stop)))).log = true) :
    ∃ front x back,
      handledElements (System.workerLoop stop nows (s.step (Op.schedule T (some stop)))).log
        = handledElements s.log ++ (front ++ x :: back) ∧
      x.handler = some stop ∧ x.tp = T ∧
      (∀ e ∈ front, e.handler ≠ some stop) ∧
      (front.filter (fun e => decide (e.tp < T))).Perm
        (s.q.queue.filter (fun e => decide (e.tp < T))) ∧
      (∀ e ∈ back, T ≤ e.tp) ∧
      ∀ e ∈ (System.workerLoop stop nows (s.step (Op.schedule T (some stop)))).q.queue,
        T ≤ e.tp := by
  obtain ⟨pre, suf, _, hrun⟩ := workerLoop_eq_run stop nows (s.step (Op.schedule T (some stop)))
  rw [hrun] at hset ⊢
  have hheap1 : IsHeap (s.step (Op.schedule T (some stop))).q.queue := step_isHeap s _ hheap
  obtain ⟨newly, h1, h2, h3, _, h5⟩ := run_dispatches_le pre _ hheap1
  have hlog1 : handledElements (s.step (Op.schedule T (some stop))).log
      = handledElements s.log := by
    rw [step_handledElements]; simp
  rw [hlog1] at h1
  have hq1 : (s.step (Op.schedule T (some stop))).q.queue.Perm
      (⟨T, (s.q.currentTID + 1) % TimerIDSize, false, some stop⟩ :: s.q.queue) :=
    push_perm _ _
  rw [stopWorkerThread_iff, h1] at hset
  obtain ⟨x, hx, hxs⟩ := hset
  have hxn : x ∈ newly := by
    rcases List.mem_append.mp hx with h6 | h6
    · exfalso
      have := (holders_pos_iff stop _).mpr ⟨x, h6, hxs⟩
      omega
    · exact h6
  have hxT : x.tp = T := by
    have h7 : x ∈ (s.step (Op.schedule T (some stop))).q.queue :=
      h3.mem_iff.mpr (List.mem_append_left _ hxn)
    rcases List.mem_cons.mp (hq1.mem_iff.mp h7) with h8 | h8
    · rw [h8]
    · exfalso
      have := (holders_pos_iff stop _).mpr ⟨x, h8, hxs⟩
      omega
  obtain ⟨front, back, hsplit⟩ := List.append_of_mem hxn
  rw [hsplit] at h1 h2 h3 h5
  have hback : ∀ e ∈ back, T ≤ e.tp := by
    intro e he
    have h9 := (List.pairwise_append.mp h2).2.1
    have := List.rel_of_pairwise_cons h9 he
    omega
  have hleft : ∀ e ∈ ((s.step (Op.schedule T (some stop))).run (pre.map Op.dispatch)).q.queue,
      T ≤ e.tp := by
    intro e he
    have := h5 x (by simp) e he
    omega
  have hfront : ∀ e ∈ front, e.handler ≠ some stop := by
    intro e he hes
    have hc := holders_perm stop (hq1.symm.trans h3)
    rw [holders_cons, holders_append, holders_append, holders_cons, if_pos hxs] at hc
    simp only [if_true] at hc
    have := (holders_pos_iff stop front).mpr ⟨e, he, hes⟩
    omega
  refine ⟨front, x, back, h1, hxs, hxT, hfront, ?_, hback, hleft⟩
  have hf := (hq1.symm.trans h3).filter (fun e => decide (e.tp < T))
  have hnil : ∀ l : List (QueueElement H), (∀ e ∈ l, T ≤ e.tp) →
      l.filter (fun e => decide (e.tp < T)) = [] := by
    intro l hlt
    rw [List.filter_eq_nil_iff]
    intro e he
    have := hlt e he
    simp only [decide_eq_true_eq]
    omega
  rw [List.filter_append, List.filter_append, List.filter_cons] at hf
  simp only [lt_self_iff_false, decide_False, Bool.false_eq_true, if_false] at hf
  rw [hnil _ hleft, List.append_nil] at hf
  have hxb : (x :: back).filter (fun e => decide (e.tp < T)) = [] := by
    apply hnil
    intro e he
    rcases List.mem_cons.mp he with h10 | h10
    · rw [h10, hxT]
    · exact hback e h10
  rw [hxb, List.append_nil] at hf
  exact hf.symm

end StopFlag

/-! ## Calls between the destructor's `Schedule` and the stop flag -/

section WindowReadings

variable {H : Type}

end WindowReadings

section Window

variable {H : Type} [DecidableEq H]

end Window

/-! ## Properties of the specification -/

section Properties

variable {H : Type}

/-- C1, amended. For an id other than 0, `Cancel(id)` returns `true` exactly
when the container holds an element whose `tid` is that id, whatever its
`aborted` flag: the aborted successor that an earlier `Cancel(id)` pushed keeps
the id. It returns `false` when no element carries the id. -/
theorem cancel_returns_true_iff (q : TimeQueue H) (now : Int) (tid : Nat) (_hid : tid ≠ 0) :
    (q.Cancel now tid).2 = true ↔ ∃ e ∈ q.queue, e.tid = tid :=
  Cancel_snd_true_iff q now tid

/-- Witness for C1: the timer with id 2 on `oneTimer`. -/
theorem cancel_returns_true_iff_witness :
    (2 : Nat) ≠ 0 ∧ ((oneTimer.Cancel 0 2).2 = true ↔ ∃ e ∈ oneTimer.queue, e.tid = 2) :=
  ⟨by decide, cancel_returns_true_iff oneTimer 0 2 (by decide)⟩

/-- C1 as stated fails: `Schedule` returns id 2, `Cancel(2)` returns `true`, and
a second `Cancel(2)` returns `true` again although the id has already been
cancelled and no element with id 2 and `aborted = false` is in the queue. -/
theorem cancel_twice_returns_true :
    (TimeQueue.init.Schedule 10 (some 7) : TimeQueue Nat × Nat).2 = 2 ∧
    (oneTimer.Cancel 0 2).2 = true ∧
    (oneTimerCancelled.Cancel 0 2).2 = true ∧
    ¬ ∃ e ∈ oneTimerCancelled.queue, e.tid = 2 ∧ e.aborted = false := by
  decide

/-- C2. When `Cancel(tid)` returns `true` at clock reading `now`, the container
splits at the first element `e` with that id: `e` is rewritten in place to
`tid = 0`, `aborted = true` and no handler and stays in the queue, the one new
element `{now, tid, true, e.handler}` is pushed, the size grows by one, every
other element is kept as it was, and `currentTID` is unchanged. -/
theorem cancel_neutralizes_and_pushes [DecidableEq H] (q : TimeQueue H) (now : Int) (tid : Nat)
    (hok : (q.Cancel now tid).2 = true) :
    ∃ pre e post, q.queue = pre ++ e :: post ∧ (∀ x ∈ pre, x.tid ≠ tid) ∧ e.tid = tid ∧
      (q.Cancel now tid).1.queue
        = push (pre ++ ⟨e.tp, 0, true, none⟩ :: post) ⟨now, tid, true, e.handler⟩ ∧
      (q.Cancel now tid).1.queue.Perm
        (⟨now, tid, true, e.handler⟩ :: (pre ++ ⟨e.tp, 0, true, none⟩ :: post)) ∧
      (q.Cancel now tid).1.queue.length = q.queue.length + 1 ∧
      (q.Cancel now tid).1.currentTID = q.currentTID := by
  rw [Cancel_snd] at hok
  cases hc : TimeQueue.cancelLoop now tid q.queue with
  | none => rw [hc] at hok; simp at hok
  | some p =>
    obtain ⟨ce, vec'⟩ := p
    obtain ⟨pre, e, post, h1, h2, h3, h4, h5⟩ := cancelLoop_eq_some now tid q.queue ce vec' hc
    refine ⟨pre, e, post, h1, h2, h3, ?_⟩
    rw [Cancel_of_some q now tid ce vec' hc, h4, h5]
    refine ⟨rfl, push_perm _ _, ?_, rfl⟩
    simp only [push_length]
    rw [h1]
    simp

/-- Witness for C2: `Cancel(2)` at clock reading 3 on `oneTimer`. -/
theorem cancel_neutralizes_and_pushes_witness :
    (oneTimer.Cancel 3 2).2 = true ∧
    ∃ pre e post, oneTimer.queue = pre ++ e :: post ∧ (∀ x ∈ pre, x.tid ≠ 2) ∧ e.tid = 2 ∧
      (oneTimer.Cancel 3 2).1.queue
        = push (pre ++ ⟨e.tp, 0, true, none⟩ :: post) ⟨3, 2, true, e.handler⟩ ∧
      (oneTimer.Cancel 3 2).1.queue.Perm
        (⟨3, 2, true, e.handler⟩ :: (pre ++ ⟨e.tp, 0, true, none⟩ :: post)) ∧
      (oneTimer.Cancel 3 2).1.queue.length = oneTimer.queue.length + 1 ∧
      (oneTimer.Cancel 3 2).1.currentTID = oneTimer.currentTID :=
  ⟨by decide, cancel_neutralizes_and_pushes oneTimer 3 2 (by decide)⟩

/-- C3. For a handler `h` passed to exactly one `Schedule` call of any sequence
of `Schedule`, `Cancel` and worker passes on a fresh queue: the elements of the
queue holding `h` and the calls of `h` made so far add up to one, so `h` is
held by exactly one element until that element is popped and is never called
twice; once no element holds `h` it has been called exactly once, and a pass
at a clock reading past every deadline empties the queue and leaves `h` called
exactly once. For any handler `h'` the holders and the calls add up to the
number of `Schedule` calls that passed `h'`. -/
theorem handler_called_exactly_once [DecidableEq H] (ops : List (Op H)) (h h' : H)
    (hone : timesScheduled h ops = 1) :
    holders h' (System.init.run ops).q.queue
        + timesCalled h' (invocations (handledElements (System.init.run ops).log))
      = timesScheduled h' ops ∧
    holders h (System.init.run ops).q.queue
        + timesCalled h (invocations (handledElements (System.init.run ops).log)) = 1 ∧
    timesCalled h (invocations (handledElements (System.init.run ops).log)) ≤ 1 ∧
    (holders h (System.init.run ops).q.queue = 0 →
      timesCalled h (invocations (handledElements (System.init.run ops).log)) = 1) ∧
    ∀ now, (∀ e ∈ (System.init.run ops).q.queue, e.tp < now) →
      (System.init.run (ops ++ [Op.dispatch now])).q.queue = [] ∧
      timesCalled h (invocations
        (handledElements (System.init.run (ops ++ [Op.dispatch now])).log)) = 1 := by
  have hbal := init_run_holders h ops
  rw [hone] at hbal
  refine ⟨init_run_holders h' ops, hbal, by omega, fun h0 => by omega, ?_⟩
  intro now hdue
  have hempty : (System.init.run (ops ++ [Op.dispatch now])).q.queue = [] := by
    rw [run_snoc]
    exact callHandlersLoop_drains now _ _ (le_refl _) hdue
  refine ⟨hempty, ?_⟩
  have hbal2 := init_run_holders h (ops ++ [Op.dispatch now])
  rw [hempty, timesScheduled_append, hone] at hbal2
  simpa [holders_nil, timesScheduled] using hbal2

/-- Witness for C3: handler 7 after `Cancel(2)` twice and a worker pass. -/
theorem handler_called_exactly_once_witness :
    timesScheduled 7 cancelTwiceThenDispatch = 1 ∧
    timesCalled 7 (invocations
      (handledElements (System.init.run cancelTwiceThenDispatch).log)) ≤ 1 :=
  ⟨by decide, (handler_called_exactly_once cancelTwiceThenDispatch 7 7 (by decide)).2.2.1⟩

/-- C4. Timers with pairwise distinct deadlines, submitted in any order `subs`
to a fresh queue, are popped in strictly increasing deadline order, however
the worker passes fall (at any clock readings `nows`, then at a reading `now`
past all deadlines): the handled elements are the submitted ones, each with
its handler and `aborted = false`, and the queue ends empty. The calls made are
the handlers of the submissions taken in increasing deadline order, each called
with `false`. More generally, after any calls `ops` the elements popped by one
pass of `CallHandlers` come out in non-decreasing deadline order and their
handlers are called in that order. -/
theorem dispatch_in_deadline_order [DecidableEq H] (subs : List (Int × Option H))
    (nows : List Int) (now : Int) (ops : List (Op H)) (now' : Int)
    (hdistinct : (subs.map Prod.fst).Nodup) (hdue : ∀ p ∈ subs, p.1 < now) :
    ((handledElements (System.init.run (subs.map (fun p => Op.schedule p.1 p.2)
        ++ (nows ++ [now]).map Op.dispatch)).log).map
        (fun e => (e.tp, e.handler, e.aborted))).Perm (subs.map (fun p => (p.1, p.2, false))) ∧
    ((handledElements (System.init.run (subs.map (fun p => Op.schedule p.1 p.2)
        ++ (nows ++ [now]).map Op.dispatch)).log).map
        (fun e => e.tp)).Pairwise (fun a b => a < b) ∧
    (System.init.run (subs.map (fun p => Op.schedule p.1 p.2)
        ++ (nows ++ [now]).map Op.dispatch)).q.queue = [] ∧
    ((System.init.run ops).q.CallHandlers now').2.Pairwise (fun a b => a.tp ≤ b.tp) ∧
    (∃ sorted : List (Int × Option H), sorted.Perm subs ∧
      (sorted.map Prod.fst).Pairwise (fun a b => a < b) ∧
      invocations (handledElements (System.init.run (subs.map (fun p => Op.schedule p.1 p.2)
          ++ (nows ++ [now]).map Op.dispatch)).log)
        = sorted.filterMap (fun p => p.2.map (fun h => (h, false)))) ∧
    invocations ((System.init.run ops).q.CallHandlers now').2
      = ((System.init.run ops).q.CallHandlers now').2.filterMap
          (fun e => e.handler.map (fun h => (h, e.aborted))) := by
  have hq := run_schedules_perm (System.init : System H) subs
  have hlog := run_schedules_handledElements (System.init : System H) subs
  have hheap := init_run_isHeap (subs.map (fun p : Int × Option H => Op.schedule p.1 p.2))
  rw [run_append]
  generalize System.init.run (subs.map (fun p => Op.schedule p.1 p.2)) = s at hq hlog hheap
  simp only [System.init, TimeQueue.init, List.map_nil, List.nil_append, handledElements] at hq hlog
  have hall : ∀ e ∈ s.q.queue, e.tp < now := by
    intro e he
    have : (e.tp, e.handler, e.aborted) ∈ subs.map (fun p => (p.1, p.2, false)) :=
      hq.mem_iff.mp (List.mem_map.mpr ⟨e, he, rfl⟩)
    obtain ⟨p, hp, hpe⟩ := List.mem_map.mp this
    have := hdue p hp
    have h1 : p.1 = e.tp := congrArg Prod.fst hpe
    omega
  have hempty : (s.run ((nows ++ [now]).map Op.dispatch)).q.queue = [] := by
    obtain ⟨newly, _, _, h3, _⟩ := run_dispatches nows s hheap
    rw [List.map_append, run_append]
    apply callHandlersLoop_drains now _ _ (le_refl _)
    intro e he
    exact hall e (h3.mem_iff.mpr (List.mem_append_right _ he))
  obtain ⟨newly, h1, h2, h3, _⟩ := run_dispatches (nows ++ [now]) s hheap
  rw [hempty, List.append_nil] at h3
  rw [hlog, List.nil_append] at h1
  rw [h1]
  have hperm2 : (newly.map (fun e => (e.tp, e.handler, e.aborted))).Perm
      (subs.map (fun p => (p.1, p.2, false))) := (h3.symm.map _).trans hq
  have hnd : (newly.map (fun e => e.tp)).Nodup := by
    have h4 := hperm2.map Prod.fst
    simp only [List.map_map] at h4
    have h5 : (Prod.fst ∘ fun p : Int × Option H => (p.1, p.2, false)) = Prod.fst := rfl
    rw [h5] at h4
    exact h4.nodup_iff.mpr hdistinct
  have hle : (newly.map (fun e => e.tp)).Pairwise (fun a b => a ≤ b) :=
    List.pairwise_map.mpr h2
  have hlt : (newly.map (fun e => e.tp)).Pairwise (fun a b => a < b) :=
    (hle.and hnd).imp (fun hab => lt_of_le_of_ne hab.1 hab.2)
  refine ⟨hperm2, hlt, hempty, callHandlersLoop_sorted now' _ _ (init_run_isHeap ops), ?_,
    invocations_eq_filterMap _⟩
  refine ⟨newly.map (fun e => (e.tp, e.handler)), ?_, ?_, ?_⟩
  · have h6 := hperm2.map (fun t : Int × Option H × Bool => (t.1, t.2.1))
    simp only [List.map_map] at h6
    have h7 : ((fun t : Int × Option H × Bool => (t.1, t.2.1))
        ∘ fun p : Int × Option H => (p.1, p.2, false)) = id := rfl
    rw [h7, List.map_id] at h6
    exact h6
  · rw [List.map_map]
    exact hlt
  · rw [invocations_eq_filterMap, List.filterMap_map]
    apply List.filterMap_congr
    intro e he
    have hmem : (e.tp, e.handler, e.aborted) ∈ subs.map (fun p => (p.1, p.2, false)) :=
      hperm2.mem_iff.mp (List.mem_map.mpr ⟨e, he, rfl⟩)
    obtain ⟨p, _, hpe⟩ := List.mem_map.mp hmem
    have hab : e.aborted = false := by
      have := congrArg (fun t : Int × Option H × Bool => t.2.2) hpe
      exact this.symm
    simp only [Function.comp, hab]

/-- Witness for C4: the five timers of `src/example.cpp`, with worker passes at
3200 and 4100 and a last one at 6000: the handlers are called in the order
5, 4, 3, 2, 1 of their deadlines. -/
theorem dispatch_in_deadline_order_witness :
    (fiveTimers.map Prod.fst).Nodup ∧ (∀ p ∈ fiveTimers, p.1 < 6000) ∧
    ((handledElements (System.init.run (fiveTimers.map (fun p => Op.schedule p.1 p.2)
        ++ ([3200, 4100] ++ [6000]).map Op.dispatch)).log).map
        (fun e => e.tp)).Pairwise (fun a b => a < b) ∧
    (∃ sorted : List (Int × Option Nat), sorted.Perm fiveTimers ∧
      (sorted.map Prod.fst).Pairwise (fun a b => a < b) ∧
      invocations (handledElements (System.init.run
          (fiveTimers.map (fun p => Op.schedule p.1 p.2)
            ++ ([3200, 4100] ++ [6000]).map Op.dispatch)).log)
        = sorted.filterMap (fun p => p.2.map (fun h => (h, false)))) ∧
    invocations (handledElements (System.init.run
        (fiveTimers.map (fun p => Op.schedule p.1 p.2)
          ++ ([3200, 4100] ++ [6000]).map Op.dispatch)).log)
      = [(5, false), (4, false), (3, false), (2, false), (1, false)] :=
  ⟨by decide, by decide,
    (dispatch_in_deadline_order fiveTimers [3200, 4100] 6000 [] 0 (by decide) (by decide)).2.1,
    (dispatch_in_deadline_order fiveTimers [3200, 4100] 6000 [] 0 (by decide)
      (by decide)).2.2.2.2.1,
    by decide⟩

/-- C5, the code at the failing input. The queue holds one timer with deadline
10 and the clock reads 10: the predicate of the timed wait holds, so the worker
takes the timer for due, but `CallHandlers` pops nothing and leaves the queue as
it is; at clock reading 11 it pops the timer. -/
theorem callHandlers_skips_deadline_equal_to_now :
    oneTimer.queue = [⟨10, 2, false, some 7⟩] ∧
    oneTimer.waitPredicate 1 10 = true ∧
    (oneTimer.CallHandlers 10).2 = [] ∧
    (oneTimer.CallHandlers 10).1 = oneTimer ∧
    (oneTimer.CallHandlers 11).2 = [⟨10, 2, false, some 7⟩] := by
  decide

/-- C6, amended. For every queue state, deadline `tp` and handler `h`,
`Schedule(tp, h)` returns the incremented counter (modulo `2 ^ 64`), stores it
in `currentTID`, adds exactly the element `{tp, id, false, h}`, grows the queue
by one and keeps every other element. In a state reached from a fresh queue by
fewer than `2 ^ 64 - 2` `Schedule` calls the id is fresh: it is the number of
earlier calls plus 2, no element of the queue carries it, and no earlier call
returned it. -/
theorem schedule_adds_one_element [DecidableEq H] (q : TimeQueue H) (tp : Int)
    (h : Option H) :
    (q.Schedule tp h).2 = (q.currentTID + 1) % 2 ^ 64 ∧
    (q.Schedule tp h).1.currentTID = (q.Schedule tp h).2 ∧
    (q.Schedule tp h).1.queue.Perm (⟨tp, (q.Schedule tp h).2, false, h⟩ :: q.queue) ∧
    (q.Schedule tp h).1.queue.length = q.queue.length + 1 ∧
    ∀ ops : List (Op H), (System.init.run ops).q = q → scheduleCalls ops < 2 ^ 64 - 2 →
      (q.Schedule tp h).2 = scheduleCalls ops + 2 ∧
      (∀ e ∈ q.queue, e.tid ≠ (q.Schedule tp h).2) ∧
      (q.Schedule tp h).2 ∉ scheduledIds (System.init.run ops).log := by
  refine ⟨rfl, rfl, push_perm _ _, push_length _ _, ?_⟩
  intro ops hq hb
  have hc := init_run_currentTID ops
  rw [hq] at hc
  have hid : (q.Schedule tp h).2 = scheduleCalls ops + 2 := by
    rw [Schedule_snd, hc]
    unfold TimerIDSize
    omega
  refine ⟨hid, ?_, ?_⟩
  · intro e he
    rw [← hq] at he
    have := init_run_tid_le ops (by omega) e he
    omega
  · rw [init_run_scheduledIds, hid]
    intro hmem
    obtain ⟨k, hk, hk2⟩ := List.mem_map.mp hmem
    have hk3 : k < scheduleCalls ops := List.mem_range.mp hk
    unfold TimerIDSize at hk2
    omega

/-- Witness for C6: a second `Schedule` after the one that made `oneTimer`. -/
theorem schedule_adds_one_element_witness :
    (System.init.run [Op.schedule 10 (some 7)]).q = oneTimer ∧
    scheduleCalls [(Op.schedule 10 (some 7) : Op Nat)] < 2 ^ 64 - 2 ∧
    (oneTimer.Schedule 20 none).2 = scheduleCalls [(Op.schedule 10 (some 7) : Op Nat)] + 2 ∧
    (∀ e ∈ oneTimer.queue, e.tid ≠ (oneTimer.Schedule 20 none).2) ∧
    (oneTimer.Schedule 20 none).2
      ∉ scheduledIds (System.init.run [Op.schedule 10 (some 7)]).log :=
  ⟨rfl, by decide,
    (schedule_adds_one_element oneTimer 20 none).2.2.2.2 [Op.schedule 10 (some 7)] rfl
      (by decide)⟩

/-- C6 as stated fails: after `wrapOps` the queue still holds the live element
with id 2 that the first `Schedule` created, and the next `Schedule` returns
id 2 again, the first id of the record. -/
theorem schedule_returns_pending_id :
    (System.init.run wrapOps).q.queue = [⟨10, 2, false, some 7⟩] ∧
    ((System.init.run wrapOps).q.Schedule 0 none).2 = 2 ∧
    (scheduledIds (System.init.run wrapOps).log)[0]? = some 2 := by
  refine ⟨wrapOps_queue, ?_, ?_⟩
  · rw [Schedule_snd, init_run_currentTID, scheduleCalls_wrapOps]
    norm_num [TimerIDSize]
  · rw [init_run_scheduledIds, scheduleCalls_wrapOps, List.getElem?_map,
      List.getElem?_range (by norm_num)]
    norm_num [TimerIDSize]

/-- C7, amended. As long as at most `2 ^ 64 - 2` `Schedule` calls have been made
on a queue, whatever `Cancel` calls and worker passes come in between, the ids
returned are strictly increasing and pairwise distinct: the `k`-th call
(counting from 0) returns `k + 2`. -/
theorem schedule_ids_increasing (ops : List (Op H)) (hb : scheduleCalls ops ≤ 2 ^ 64 - 2) :
    (scheduledIds (System.init.run ops).log).Pairwise (fun a b => a < b) ∧
    (scheduledIds (System.init.run ops).log).Nodup ∧
    ∀ k, k < scheduleCalls ops → (scheduledIds (System.init.run ops).log)[k]? = some (k + 2) := by
  have hids : scheduledIds (System.init.run ops).log
      = (List.range (scheduleCalls ops)).map (fun k => k + 2) := by
    rw [init_run_scheduledIds]
    apply List.map_congr_left
    intro k hk
    have hk3 : k < scheduleCalls ops := List.mem_range.mp hk
    unfold TimerIDSize
    omega
  have hpw : (scheduledIds (System.init.run ops).log).Pairwise (fun a b => a < b) := by
    rw [hids]
    exact List.Pairwise.map _ (fun a b hab => by omega) (List.pairwise_lt_range _)
  refine ⟨hpw, ?_, ?_⟩
  · exact hpw.imp (fun hab => Nat.ne_of_lt hab)
  · intro k hk
    rw [hids, List.getElem?_map, List.getElem?_range hk]
    rfl

/-- Witness for C7: two timers, a cancellation and a worker pass in between. -/
theorem schedule_ids_increasing_witness :
    scheduleCalls [(Op.schedule 10 (some 7) : Op Nat), Op.cancel 0 2, Op.dispatch 5,
      Op.scheduleAfter 5 3 none] ≤ 2 ^ 64 - 2 ∧
    (scheduledIds (System.init.run [(Op.schedule 10 (some 7) : Op Nat), Op.cancel 0 2,
      Op.dispatch 5, Op.scheduleAfter 5 3 none]).log).Pairwise (fun a b => a < b) :=
  ⟨by decide, (schedule_ids_increasing _ (by decide)).1⟩

/-- C7 as stated fails: in `2 ^ 64 + 1` rounds the first call returns 2, the
call number `2 ^ 64 - 1` returns 0, and the last call returns 2 again. -/
theorem schedule_ids_repeat_after_wrap :
    (scheduledIds (System.init.run (rounds (2 ^ 64 + 1))).log)[0]? = some 2 ∧
    (scheduledIds (System.init.run (rounds (2 ^ 64 + 1))).log)[2 ^ 64 - 2]? = some 0 ∧
    (scheduledIds (System.init.run (rounds (2 ^ 64 + 1))).log)[2 ^ 64]? = some 2 := by
  rw [init_run_scheduledIds, scheduleCalls_rounds]
  refine ⟨?_, ?_, ?_⟩
  · rw [List.getElem?_map, List.getElem?_range (by norm_num)]
    norm_num [TimerIDSize]
  · rw [List.getElem?_map, List.getElem?_range (by norm_num)]
    norm_num [TimerIDSize]
  · rw [List.getElem?_map, List.getElem?_range (by norm_num)]
    norm_num [TimerIDSize]

/-- C8. For every duration, positive, zero or negative, and every handler,
`Schedule(duration, h)` at clock reading `now` gives the same queue and returns
the same id as `Schedule(now + duration, h)`: the element it adds has the
deadline `now + duration`, and the record of the call is the same. -/
theorem scheduleAfter_eq_schedule [DecidableEq H] (q : TimeQueue H) (now duration : Int)
    (h : Option H) :
    (q.ScheduleAfter now duration h).1 = (q.Schedule (now + duration) h).1 ∧
    (q.ScheduleAfter now duration h).2 = (q.Schedule (now + duration) h).2 ∧
    (q.ScheduleAfter now duration h).1.queue.Perm
      (⟨now + duration, (q.ScheduleAfter now duration h).2, false, h⟩ :: q.queue) ∧
    ∀ lg : List (Event H),
      (System.mk q lg).step (Op.scheduleAfter now duration h)
        = (System.mk q lg).step (Op.schedule (now + duration) h) :=
  ⟨rfl, rfl, push_perm _ _, fun _ => rfl⟩

/-- C9. For every element `e` the worker handled that carries a handler `h`:
the call made is `h(e.aborted)`; the argument is `true` exactly when `e` is the
`canceledElement` pushed by a successful `Cancel` of its id, so it is `false`
when no `Cancel` of that id returned `true`; and when `h` was passed to exactly
one `Schedule` call, the argument is `true` exactly when a successful `Cancel`
superseded the element holding `h`. -/
theorem handler_argument_is_aborted_flag [DecidableEq H] (ops : List (Op H))
    (e : QueueElement H) (h : H)
    (he : e ∈ handledElements (System.init.run ops).log) (hh : e.handler = some h) :
    e.Handle = [(h, e.aborted)] ∧
    (e.aborted = true ↔
      ∃ now, Event.cancelled now e.tid (some e) ∈ (System.init.run ops).log) ∧
    ((∀ now ce, Event.cancelled now e.tid (some ce) ∉ (System.init.run ops).log) →
      e.aborted = false) ∧
    (timesScheduled h ops = 1 →
      (e.aborted = true ↔ supersededBy h (System.init.run ops).log)) := by
  have hne : e.handler ≠ none := by rw [hh]; simp
  have hto : e.aborted = true →
      ∃ now, Event.cancelled now e.tid (some e) ∈ (System.init.run ops).log :=
    fun ha => aborted_from_cancel ops e (Or.inr he) hne ha
  refine ⟨by simp [QueueElement.Handle, hh], ⟨hto, ?_⟩, ?_, ?_⟩
  · rintro ⟨now, hnow⟩
    exact (cancelled_shape ops now e.tid e hnow).1
  · intro hnone
    cases ha : e.aborted with
    | false => rfl
    | true =>
      obtain ⟨now, hnow⟩ := hto ha
      exact absurd hnow (hnone now e)
  · intro hone
    constructor
    · intro ha
      obtain ⟨now, hnow⟩ := hto ha
      exact ⟨now, e.tid, e, hnow, hh⟩
    · intro hs
      exact superseded_holder_aborted h ops (by omega) hs e (Or.inr he) hh

/-- Witness for C9: the aborted successor of timer 2, handled at clock reading 5. -/
theorem handler_argument_is_aborted_flag_witness :
    (⟨1, 2, true, some 7⟩ : QueueElement Nat)
      ∈ handledElements (System.init.run cancelTwiceThenDispatch).log ∧
    (⟨1, 2, true, some 7⟩ : QueueElement Nat).Handle = [(7, true)] ∧
    ∃ now, Event.cancelled now 2 (some (⟨1, 2, true, some 7⟩ : QueueElement Nat))
      ∈ (System.init.run cancelTwiceThenDispatch).log :=
  ⟨by decide,
    (handler_argument_is_aborted_flag cancelTwiceThenDispatch ⟨1, 2, true, some 7⟩ 7
      (by decide) rfl).1,
    (handler_argument_is_aborted_flag cancelTwiceThenDispatch ⟨1, 2, true, some 7⟩ 7
      (by decide) rfl).2.1.mp rfl⟩

/-- C10, amended. In every state reached by `Schedule`, `Cancel` and worker
passes the container is in heap order over deadlines, so when the queue is not
empty its front element has the least deadline of all elements of the
container: live ones, aborted successors and neutralized originals alike. -/
theorem front_has_least_deadline (ops : List (Op H)) :
    IsHeap (System.init.run ops).q.queue ∧
    ((System.init.run ops).q.queue ≠ [] → ∃ x, top (System.init.run ops).q.queue = some x) ∧
    ∀ x, top (System.init.run ops).q.queue = some x →
      ∀ e ∈ (System.init.run ops).q.queue, x.tp ≤ e.tp := by
  refine ⟨init_run_isHeap ops, ?_, fun x hx => top_min _ (init_run_isHeap ops) x hx⟩
  intro hne
  cases hq : (System.init.run ops).q.queue with
  | nil => exact absurd hq hne
  | cons a rest => exact ⟨a, rfl⟩

/-- C10 as stated fails: after `cancelledFirstOfTwo` the front element is the
neutralized original of timer 2 (`tid = 0`, no handler), while the live timer 3
and the aborted successor of timer 2 sit behind it. -/
theorem front_is_neutralized_element :
    top (System.init.run cancelledFirstOfTwo).q.queue = some ⟨10, 0, true, none⟩ ∧
    (⟨20, 3, false, some 8⟩ : QueueElement Nat) ∈ (System.init.run cancelledFirstOfTwo).q.queue ∧
    (⟨15, 2, true, some 7⟩ : QueueElement Nat) ∈ (System.init.run cancelledFirstOfTwo).q.queue := by
  decide

/-- C11. For every queue state and every id that no element of the container
carries (its element was popped for dispatch, or the id was never issued),
`Cancel(id)` returns `false` and leaves the queue object as it is, contents and
id counter; the record only gains the failed call, so the elements handled so
far and the calls of their handlers are unchanged. -/
theorem cancel_without_match_changes_nothing (s : System H) (now : Int) (tid : Nat)
    (hno : ∀ e ∈ s.q.queue, e.tid ≠ tid) :
    (s.q.Cancel now tid).2 = false ∧
    (s.q.Cancel now tid).1 = s.q ∧
    (s.step (Op.cancel now tid)).q.queue = s.q.queue ∧
    (s.step (Op.cancel now tid)).q.currentTID = s.q.currentTID ∧
    (s.step (Op.cancel now tid)).log = s.log ++ [Event.cancelled now tid none] ∧
    handledElements (s.step (Op.cancel now tid)).log = handledElements s.log ∧
    invocations (handledElements (s.step (Op.cancel now tid)).log)
      = invocations (handledElements s.log) := by
  have h1 := Cancel_no_match s.q now tid hno
  have h2 := step_cancel_no_match s now tid hno
  have h3 : handledElements (s.step (Op.cancel now tid)).log = handledElements s.log := by
    rw [step_handledElements]; simp
  refine ⟨by rw [h1], by rw [h1], by rw [h2], by rw [h2], by rw [h2], h3, by rw [h3]⟩

/-- Witness for C11: `Cancel(2)` after the worker has popped and handled timer 2. -/
theorem cancel_without_match_changes_nothing_witness :
    (∀ e ∈ (System.init.run [Op.schedule 10 (some 7), Op.dispatch 11]).q.queue, e.tid ≠ 2) ∧
    ((System.init.run [Op.schedule 10 (some 7), Op.dispatch 11]).q.Cancel 12 2).2 = false ∧
    invocations (handledElements ((System.init.run [Op.schedule 10 (some 7),
        Op.dispatch 11]).step (Op.cancel 12 2)).log) = [(7, false)] := by
  have h := cancel_without_match_changes_nothing
    (System.init.run [Op.schedule 10 (some 7), Op.dispatch 11]) 12 2 (by decide)
  exact ⟨by decide, h.1, h.2.2.2.2.2.2.trans (by decide)⟩

/-- C12, amended. After any calls, when `Cancel(tid)` returns `true` at clock
reading `now`, the successor it pushes has the deadline `now`: that is not
later than the deadline of the original element exactly when `Cancel` is called
at or before that deadline. The successor is in the queue with
`aborted = true` and the original handler, and a worker pass at any later clock
reading pops it and calls the handler with `true`. -/
theorem cancelled_handler_due_at_cancel_time [DecidableEq H] (ops : List (Op H)) (now : Int)
    (tid : Nat) (later : Int)
    (hok : ((System.init.run ops).q.Cancel now tid).2 = true) (hlater : now < later) :
    ∃ pre e post, (System.init.run ops).q.queue = pre ++ e :: post ∧
      (∀ x ∈ pre, x.tid ≠ tid) ∧ e.tid = tid ∧
      (⟨now, tid, true, e.handler⟩ : QueueElement H)
        ∈ ((System.init.run ops).q.Cancel now tid).1.queue ∧
      ((⟨now, tid, true, e.handler⟩ : QueueElement H).tp ≤ e.tp ↔ now ≤ e.tp) ∧
      (⟨now, tid, true, e.handler⟩ : QueueElement H)
        ∈ (((System.init.run ops).q.Cancel now tid).1.CallHandlers later).2 ∧
      ∀ h, e.handler = some h →
        (h, true) ∈ invocations
          (((System.init.run ops).q.Cancel now tid).1.CallHandlers later).2 := by
  have hheap : IsHeap ((System.init.run ops).q.Cancel now tid).1.queue :=
    Cancel_isHeap _ now tid (init_run_isHeap ops)
  rw [Cancel_snd] at hok
  cases hc : TimeQueue.cancelLoop now tid (System.init.run ops).q.queue with
  | none => rw [hc] at hok; simp at hok
  | some p =>
    obtain ⟨ce, vec'⟩ := p
    obtain ⟨pre, e, post, h1, h2, h3, h4, h5⟩ := cancelLoop_eq_some now tid _ ce vec' hc
    have hmem : (⟨now, tid, true, e.handler⟩ : QueueElement H)
        ∈ ((System.init.run ops).q.Cancel now tid).1.queue := by
      rw [Cancel_of_some _ now tid ce vec' hc, h4]
      exact (mem_push _ _ _).mpr (Or.inl rfl)
    have hpop := mem_popped_of_lt _ later hheap _ hmem hlater
    refine ⟨pre, e, post, h1, h2, h3, hmem, Iff.rfl, hpop, ?_⟩
    intro h hh
    exact mem_invocations _ _ h hpop hh

/-- Witness for C12: `Cancel(2)` at clock reading 3 on the timer with deadline
10, and a worker pass at 4. -/
theorem cancelled_handler_due_at_cancel_time_witness :
    ((System.init.run [Op.schedule 10 (some 7)]).q.Cancel 3 2).2 = true ∧ (3 : Int) < 4 ∧
    ∃ pre e post, (System.init.run [Op.schedule 10 (some 7)]).q.queue = pre ++ e :: post ∧
      (∀ x ∈ pre, x.tid ≠ 2) ∧ e.tid = 2 ∧
      (⟨3, 2, true, e.handler⟩ : QueueElement Nat)
        ∈ ((System.init.run [Op.schedule 10 (some 7)]).q.Cancel 3 2).1.queue ∧
      ((⟨3, 2, true, e.handler⟩ : QueueElement Nat).tp ≤ e.tp ↔ (3 : Int) ≤ e.tp) ∧
      (⟨3, 2, true, e.handler⟩ : QueueElement Nat)
        ∈ (((System.init.run [Op.schedule 10 (some 7)]).q.Cancel 3 2).1.CallHandlers 4).2 ∧
      ∀ h, e.handler = some h →
        (h, true) ∈ invocations
          (((System.init.run [Op.schedule 10 (some 7)]).q.Cancel 3 2).1.CallHandlers 4).2 :=
  ⟨by decide, by decide,
    cancelled_handler_due_at_cancel_time [Op.schedule 10 (some 7)] 3 2 4 (by decide)
      (by decide)⟩

/-- C12 as stated fails: the timer with deadline 10 is still in the queue at
clock reading 15, `Cancel(2)` returns `true`, and the successor it pushes has
the deadline 15, later than the original deadline 10. -/
theorem cancel_after_deadline_pushes_later_successor :
    oneTimer.queue = [⟨10, 2, false, some 7⟩] ∧
    (oneTimer.Cancel 15 2).2 = true ∧
    (oneTimer.Cancel 15 2).1.queue = [⟨10, 0, true, none⟩, ⟨15, 2, true, some 7⟩] ∧
    ¬ ((⟨15, 2, true, some 7⟩ : QueueElement Nat).tp
        ≤ (⟨10, 2, false, some 7⟩ : QueueElement Nat).tp) := by
  decide

/-- C13. For every queue state `ClearAll` ends with the queue empty and the id
counter as it was, and it calls no handler: the destructor, when the worker has
left its loop, returns a state whose queue is empty and whose record is the
record at the end of the worker loop, so the elements still in the queue then
are discarded without a call. The worker does leave its loop, and the
destructor returns, once a worker pass runs at a clock reading after `now`. -/
theorem clearAll_discards_without_calls [DecidableEq H] (q : TimeQueue H) (s : System H)
    (stop : H) (now : Int) (nows : List Int) :
    q.ClearAll.queue = [] ∧
    q.ClearAll.currentTID = q.currentTID ∧
    (∀ s', s.destructor stop now nows = some s' →
      s'.q.queue = [] ∧
      s'.log = (System.workerLoop stop nows (s.step (Op.schedule now (some stop)))).log ∧
      invocations (handledElements s'.log) = invocations (handledElements
        (System.workerLoop stop nows (s.step (Op.schedule now (some stop)))).log)) ∧
    (IsHeap s.q.queue → (∃ n ∈ nows, now < n) →
      ∃ s', s.destructor stop now nows = some s') := by
  refine ⟨clearAllLoop_nil _ _ (le_refl _), rfl, ?_, ?_⟩
  · intro s' hs'
    unfold System.destructor at hs'
    split_ifs at hs' with hflag
    have hs'' := Option.some.inj hs'
    rw [← hs'']
    exact ⟨clearAllLoop_nil _ _ (le_refl _), rfl, rfl⟩
  · intro hheap hclock
    have hflag := workerLoop_sets_flag stop now nows (s.step (Op.schedule now (some stop)))
      (step_isHeap s _ hheap)
      (Or.inr ⟨⟨now, (s.q.currentTID + 1) % TimerIDSize, false, some stop⟩,
        (mem_push _ _ _).mpr (Or.inl rfl), rfl, le_refl _⟩) hclock
    unfold System.destructor
    rw [if_pos hflag]
    exact ⟨_, rfl⟩

/-- Witness for C13: the destructor at clock reading 25 on `threeTimers`, with
worker passes at 12, 26 and 40: timer 1 with deadline 30 is discarded and its
handler is not called. -/
theorem clearAll_discards_without_calls_witness :
    (System.init.run threeTimers).q.ClearAll.queue = [] ∧
    ∃ s', (System.init.run threeTimers).destructor 0 25 [12, 26, 40] = some s' ∧
      s'.q.queue = [] ∧
      invocations (handledElements s'.log) = [(2, false), (3, false), (0, false)] := by
  have h := clearAll_discards_without_calls (System.init.run threeTimers).q
    (System.init.run threeTimers) 0 25 [12, 26, 40]
  obtain ⟨s', hs'⟩ := h.2.2.2 (by decide) ⟨26, by decide, by decide⟩
  refine ⟨h.1, s', hs', (h.2.2.1 s' hs').1, ?_⟩
  rw [(h.2.2.1 s' hs').2.2]
  decide

/-- C16. Let the worker enter the timed wait on a non-empty queue `q`, capturing
its size. On any non-empty queue the predicate of the wait holds exactly when
the deadline of the front element of that queue is at or before the clock
reading or the size differs from the captured one. After a `Schedule`, or a
`Cancel` that returned `true`, the predicate holds at every clock reading; and
after any calls of `Schedule` and `Cancel`, if the predicate does not hold the
queue object is as it was at wait entry. -/
theorem wait_predicate_tracks_front_and_size (q : TimeQueue H) (front : QueueElement H)
    (htop : top q.queue = some front) :
    (∀ now, q.waitPredicate q.queue.length now = true ↔ front.tp ≤ now) ∧
    (∀ (q' : TimeQueue H) (front' : QueueElement H) (now : Int),
      top q'.queue = some front' →
      (q'.waitPredicate q.queue.length now = true
        ↔ front'.tp ≤ now ∨ q.queue.length ≠ q'.queue.length)) ∧
    (∀ (tp : Int) (h : Option H) (now : Int),
      (q.Schedule tp h).1.waitPredicate q.queue.length now = true) ∧
    (∀ (t : Int) (tid : Nat) (now : Int), (q.Cancel t tid).2 = true →
      (q.Cancel t tid).1.waitPredicate q.queue.length now = true) ∧
    (∀ (lg : List (Event H)) (calls : List (Op H)) (now : Int),
      (∀ op ∈ calls, ∀ n, op ≠ Op.dispatch n) →
      ((System.mk q lg).run calls).q.waitPredicate q.queue.length now = false →
      ((System.mk q lg).run calls).q = q) := by
  refine ⟨?_, ?_, ?_, ?_, ?_⟩
  · intro now
    rw [waitPredicate_iff q _ now front htop]
    simp
  · intro q' front' now htop'
    exact waitPredicate_iff q' _ now front' htop'
  · intro tp h now
    apply waitPredicate_of_size
    rw [Schedule_queue, push_length]
    omega
  · intro t tid now hok
    apply waitPredicate_of_size
    rw [Cancel_length, hok]
    simp
  · intro lg calls now hcalls hfalse
    have hlen := run_caller_length (System.mk q lg) calls hcalls
    apply hlen.2
    by_contra hne
    have := waitPredicate_of_size ((System.mk q lg).run calls).q q.queue.length now
      (fun h => hne h.symm)
    rw [this] at hfalse
    exact Bool.noConfusion hfalse

/-- Witness for C16: the timed wait on `oneTimer`, front deadline 10. -/
theorem wait_predicate_tracks_front_and_size_witness :
    top oneTimer.queue = some ⟨10, 2, false, some 7⟩ ∧
    (oneTimer.waitPredicate oneTimer.queue.length 9 = true ↔ (10 : Int) ≤ 9) ∧
    (oneTimer.Schedule 50 none).1.waitPredicate oneTimer.queue.length 9 = true :=
  ⟨by decide,
    (wait_predicate_tracks_front_and_size oneTimer ⟨10, 2, false, some 7⟩ (by decide)).1 9,
    (wait_predicate_tracks_front_and_size oneTimer ⟨10, 2, false, some 7⟩
      (by decide)).2.2.1 50 none 9⟩

/-- C17. When the front element `e` is due and its handler is empty, handling
it calls nothing: the pass is the pass on the queue with `e` popped, with the
same calls and the same queue left, so `e` is only removed. The element that
`Cancel` leaves in place has an empty handler, like an element scheduled with
an empty handler. -/
theorem empty_handler_is_only_removed [DecidableEq H] (q : TimeQueue H) (now : Int)
    (e : QueueElement H) (htop : top q.queue = some e) (hdue : e.tp < now)
    (hempty : e.handler = none) :
    e.Handle = [] ∧
    (q.CallHandlers now).2
      = e :: ((⟨pop q.queue, q.currentTID⟩ : TimeQueue H).CallHandlers now).2 ∧
    invocations (q.CallHandlers now).2
      = invocations ((⟨pop q.queue, q.currentTID⟩ : TimeQueue H).CallHandlers now).2 ∧
    (q.CallHandlers now).1 = ((⟨pop q.queue, q.currentTID⟩ : TimeQueue H).CallHandlers now).1 ∧
    q.queue.Perm (e :: pop q.queue) ∧
    (∀ (x : QueueElement H) (t : Int), (x.Cancel t).2.handler = none) ∧
    ∀ (tp : Int), ((q.Schedule tp none).1.queue.Perm (⟨tp, (q.Schedule tp none).2, false, none⟩
      :: q.queue)) := by
  have hfront := CallHandlers_front q now e htop hdue
  have hH : e.Handle = [] := by simp [QueueElement.Handle, hempty]
  refine ⟨hH, hfront.2, ?_, hfront.1, pop_perm q.queue e htop, fun _ _ => rfl,
    fun _ => push_perm _ _⟩
  rw [hfront.2]
  unfold invocations
  rw [List.flatMap_cons, hH, List.nil_append]

/-- Witness for C17: the neutralized original left by `Cancel(2)` on timer 2 is
at the front with deadline 0 and is due at clock reading 5. -/
theorem empty_handler_is_only_removed_witness :
    top (System.init.run [Op.schedule 0 (some 7), Op.cancel 1 2]).q.queue
      = some ⟨0, 0, true, none⟩ ∧
    invocations ((System.init.run [Op.schedule 0 (some 7), Op.cancel 1 2]).q.CallHandlers 5).2
      = invocations ((⟨pop (System.init.run [Op.schedule 0 (some 7), Op.cancel 1 2]).q.queue,
          (System.init.run [Op.schedule 0 (some 7), Op.cancel 1 2]).q.currentTID⟩
            : TimeQueue Nat).CallHandlers 5).2 :=
  ⟨by decide,
    (empty_handler_is_only_removed (System.init.run [Op.schedule 0 (some 7), Op.cancel 1 2]).q 5
      ⟨0, 0, true, none⟩ (by decide) (by decide) rfl).2.2.1⟩

/-- C18. `QueueElement::Cancel` keeps the deadline of the element it rewrites, so
the loop of `Cancel` leaves the deadline at every position of the container;
heap order over deadlines, valid before `Cancel`, is valid after the in-place
write and after the push of the successor, whether `Cancel` found a match or
not. -/
theorem cancel_keeps_deadlines_and_heap_order (q : TimeQueue H) (now : Int) (tid : Nat)
    (hheap : IsHeap q.queue) :
    (∀ e : QueueElement H, (e.Cancel now).2.tp = e.tp ∧ (e.Cancel now).2.tid = 0 ∧
      (e.Cancel now).2.aborted = true ∧ (e.Cancel now).2.handler = none) ∧
    (∀ ce vec', TimeQueue.cancelLoop now tid q.queue = some (ce, vec') →
      vec'.map (fun e => e.tp) = q.queue.map (fun e => e.tp) ∧ IsHeap vec' ∧
      (q.Cancel now tid).1.queue = push vec' ce ∧ IsHeap (push vec' ce)) ∧
    IsHeap (q.Cancel now tid).1.queue := by
  refine ⟨fun e => ⟨rfl, rfl, rfl, rfl⟩, ?_, Cancel_isHeap q now tid hheap⟩
  intro ce vec' hc
  have h1 := cancelLoop_isHeap now tid q.queue vec' ce hc hheap
  refine ⟨cancelLoop_deadlines now tid q.queue vec' ce hc, h1, ?_, push_isHeap _ _ h1⟩
  rw [Cancel_of_some q now tid ce vec' hc]

/-- Witness for C18: `Cancel(2)` at clock reading 15 on two timers in heap order. -/
theorem cancel_keeps_deadlines_and_heap_order_witness :
    IsHeap (System.init.run [Op.schedule 10 (some 7), Op.schedule 20 (some 8)]).q.queue ∧
    IsHeap ((System.init.run
      [Op.schedule 10 (some 7), Op.schedule 20 (some 8)]).q.Cancel 15 2).1.queue :=
  ⟨by decide,
    (cancel_keeps_deadlines_and_heap_order
      (System.init.run [Op.schedule 10 (some 7), Op.schedule 20 (some 8)]).q 15 2
      (by decide)).2.2⟩

/-- C19. For every `k` with `1 ≤ k < 2 ^ 64 - 1`, the `k`-th `Schedule` call on a
queue returns `k + 1`, which is not 0. `Cancel` of such an id only matches an
element carrying that id, never an element as `QueueElement::Cancel` leaves it
behind, whose `tid` is 0. As long as at most `2 ^ 64 - 2` `Schedule` calls have
been made, no call has returned 0 and every element with `tid = 0` in the queue
is one written by `Cancel`: `aborted = true`, no handler. -/
theorem kth_schedule_returns_k_plus_one [DecidableEq H] (ops : List (Op H)) (k : Nat)
    (hk1 : 1 ≤ k) (hk2 : k < 2 ^ 64 - 1) (hk3 : k ≤ scheduleCalls ops) :
    (scheduledIds (System.init.run ops).log)[k - 1]? = some (k + 1) ∧
    k + 1 ≠ 0 ∧
    (∀ (q : TimeQueue H) (now : Int) ce vec',
      TimeQueue.cancelLoop now (k + 1) q.queue = some (ce, vec') →
      ∃ pre x post, q.queue = pre ++ x :: post ∧ x.tid = k + 1 ∧
        ∀ (e' : QueueElement H) (t : Int), x ≠ (e'.Cancel t).2) ∧
    (scheduleCalls ops ≤ 2 ^ 64 - 2 →
      0 ∉ scheduledIds (System.init.run ops).log ∧
      ∀ e ∈ (System.init.run ops).q.queue, e.tid = 0 → e.aborted = true ∧ e.handler = none) := by
  refine ⟨?_, by omega, ?_, ?_⟩
  · rw [init_run_scheduledIds, List.getElem?_map, List.getElem?_range (by omega)]
    simp only [Option.map_some', Option.some.injEq]
    unfold TimerIDSize
    omega
  · intro q now ce vec' hc
    obtain ⟨pre, x, post, h1, _, h3, _, _⟩ := cancelLoop_eq_some now (k + 1) q.queue ce vec' hc
    refine ⟨pre, x, post, h1, h3, ?_⟩
    intro e' t hx
    have : x.tid = 0 := by rw [hx]; rfl
    omega
  · intro hb
    refine ⟨?_, init_run_tid_zero ops hb⟩
    rw [init_run_scheduledIds]
    intro hmem
    obtain ⟨j, hj, hj2⟩ := List.mem_map.mp hmem
    have hj3 : j < scheduleCalls ops := List.mem_range.mp hj
    unfold TimerIDSize at hj2
    omega

/-- Witness for C19: the second `Schedule` call of a run returns 3. -/
theorem kth_schedule_returns_k_plus_one_witness :
    (1 ≤ 2) ∧ (2 < 2 ^ 64 - 1) ∧
    (2 ≤ scheduleCalls [(Op.schedule 10 (some 7) : Op Nat), Op.cancel 0 2,
      Op.scheduleAfter 5 3 none]) ∧
    (scheduledIds (System.init.run [(Op.schedule 10 (some 7) : Op Nat), Op.cancel 0 2,
      Op.scheduleAfter 5 3 none]).log)[2 - 1]? = some (2 + 1) :=
  ⟨by decide, by decide, by decide,
    (kth_schedule_returns_k_plus_one [(Op.schedule 10 (some 7) : Op Nat), Op.cancel 0 2,
      Op.scheduleAfter 5 3 none] 2 (by decide) (by decide) (by decide)).1⟩

end Properties

end tq
